import Mathlib

/-!
Verification of the `sch::BigInt` arbitrary-precision integer class
(`src/include/BigInt.hpp`) against its natural-language specification.

The C++ class stores a sign flag (`enum class sign : bool { negative,
positive }`) and a little-endian vector of base-10 limbs
(`std::vector<uint8_t> _data`).  We embed the class shallowly: `_data`
becomes `List Nat` (little-endian, one decimal digit per entry) and each
member function becomes a Lean function translated line by line from the
source.  The only undefined behaviour reachable in the arithmetic kernel
is the unchecked read `lhs._data[it_lhs + 1]` in `BigInt::subtract`; the
functions that can reach it are therefore `Option`-valued, returning
`none` exactly when that out-of-range access happens.  The uint8_t
decrement that can wrap (the end of the borrow chain) is modelled with
an explicit `% 256`.
-/

namespace Sch

/-- Mirror of `enum class sign : bool { negative, positive }`. -/
inductive Sign where
  | negative
  | positive
deriving DecidableEq

/-- Mirror of `class BigInt`: a sign and little-endian base-10 limbs.
The default constructor leaves `_sign = positive` and `_data` empty. -/
structure BigInt where
  sign : Sign := Sign.positive
  data : List Nat := []
deriving DecidableEq

/-- The default-constructed `BigInt{}`: positive sign, empty limb vector. -/
def defaultBigInt : BigInt := {}

/-- Value of a little-endian digit list. -/
def digitsVal : List Nat → Nat
  | [] => 0
  | d :: ds => d + 10 * digitsVal ds

/-- Mathematical value of a `BigInt`. -/
def value (b : BigInt) : Int :=
  match b.sign with
  | Sign.positive => (digitsVal b.data : Int)
  | Sign.negative => -(digitsVal b.data : Int)

/-- Helper for `normalize`: drops leading zeros of a big-endian list while
keeping at least one element (the `while (_data.size() > 1 && _data.back() == 0)
pop_back()` loop, viewed from the most-significant end). -/
def popLeadingZeros : List Nat → List Nat
  | 0 :: d :: ds => popLeadingZeros (d :: ds)
  | l => l

/-- The trailing-zero trimming performed by `BigInt::normalize` on the
little-endian `_data` vector. -/
def trimTrailingZeros (l : List Nat) : List Nat :=
  (popLeadingZeros l.reverse).reverse

/-- Mirror of `BigInt::normalize()`: pop trailing zero limbs while more than
one limb remains; if the data is empty or equal to `{0}`, force the sign
positive. -/
def normalize (b : BigInt) : BigInt :=
  let d := trimTrailingZeros b.data
  ⟨if d = [] ∨ d = [0] then Sign.positive else b.sign, d⟩

/-- Mirror of the string constructor `BigInt::BigInt(const std::string &)`.
The constructor peels an optional leading `-`, requires every remaining
character to be a decimal digit (else it throws `std::invalid_argument`,
modelled as `none`), stores the digits reversed with `'0'` subtracted, and
normalizes.  On the empty string the C++ calls `str.front()`, which is
undefined behaviour; the model returns `none` there. -/
def ofChars (s : List Char) : Option BigInt :=
  match s with
  | [] => none
  | c :: _ =>
    let sgn := if c = '-' then Sign.negative else Sign.positive
    let digits := if c = '-' then s.tail else s
    if digits.all (fun ch => ch.isDigit) then
      some (normalize ⟨sgn, (digits.reverse).map (fun ch => ch.toNat - 48)⟩)
    else
      none

/-- Mirror of `BigInt::to_string()`: `"0"` for empty data, otherwise an
optional `-` followed by the limbs from most to least significant, each
limb printed as `*it + '0'`. -/
def to_string (b : BigInt) : List Char :=
  if b.data = [] then ['0']
  else
    (if b.sign = Sign.negative then ['-'] else []) ++
      (b.data.reverse).map (fun d => Char.ofNat (d + 48))

/-- Mirror of `BigInt::operator==`: identical limb vector and identical sign. -/
def beq (a b : BigInt) : Bool :=
  a.data = b.data && a.sign = b.sign

/-- Mirror of `std::lexicographical_compare` on two ranges. -/
def lexLt : List Nat → List Nat → Bool
  | _, [] => false
  | [], _ :: _ => true
  | x :: xs, y :: ys => if x < y then true else if y < x then false else lexLt xs ys

/-- Mirror of `BigInt::operator<`: sign first, then limb count, then
lexicographic comparison of the limbs from most- to least-significant
(reversed for two negative numbers). -/
def lt (a b : BigInt) : Bool :=
  if a.sign = Sign.negative ∧ b.sign = Sign.positive then true
  else if a.sign = Sign.positive ∧ b.sign = Sign.negative then false
  else if a.data.length ≠ b.data.length then
    (if a.sign = Sign.positive then a.data.length < b.data.length
     else b.data.length < a.data.length)
  else if a.sign = Sign.positive then lexLt a.data.reverse b.data.reverse
  else lexLt b.data.reverse a.data.reverse

/-- Mirror of the const unary minus `BigInt BigInt::operator-() const`:
returns a copy with the sign flipped (no normalization). -/
def negConst (b : BigInt) : BigInt :=
  ⟨if b.sign = Sign.positive then Sign.negative else Sign.positive, b.data⟩

/-- Mirror of the non-const unary minus `BigInt &BigInt::operator-()`:
flips `_sign` of the operand in place and returns a reference to it.
Modelled as the pair (state of the operand after the call, returned value). -/
def negMut (b : BigInt) : BigInt × BigInt :=
  (negConst b, negConst b)

/-- Mirror of the carry loop of `BigInt::operator++()` on a non-negative
value: `while (i < _data.size() && ++_data[i] == 10) _data[i++] = 0;`
followed by `push_back(1)` when the carry survives every limb. -/
def incData : List Nat → List Nat
  | [] => [1]
  | d :: ds => if d + 1 = 10 then 0 :: incData ds else (d + 1) :: ds

/-- Mirror of the borrow loop of `BigInt::operator--()` on a non-negative
value: scan for the first nonzero limb, turning the zero limbs below it
into 9; note that when every limb is zero the loop turns them all into 9
(this is the `--(0) == 9` defect). -/
def decData : List Nat → List Nat
  | [] => []
  | d :: ds => if d > 0 then (d - 1) :: ds else 9 :: decData ds

/-- Mirror of the cleanup after the borrow loop of `operator--`:
`if (_data.back() == 0 && _data.size() != 1) _data.pop_back();`
(on empty data the C++ `back()` is undefined; the model returns the list). -/
def decFix (l : List Nat) : List Nat :=
  if l.getLast? = some 0 ∧ l.length ≠ 1 then l.dropLast else l

/-- The non-negative branch of `BigInt::operator++()`: the carry loop
`while (i < _data.size() && ++_data[i] == 10) _data[i++] = 0;` followed by
`push_back(1)` when the carry survives every limb. -/
def incCore (b : BigInt) : BigInt :=
  ⟨b.sign, incData b.data⟩

/-- The non-negative branch of `BigInt::operator--()`: the borrow loop
`decData` followed by the single trailing-zero pop `decFix`. -/
def decCore (b : BigInt) : BigInt :=
  ⟨b.sign, decFix (decData b.data)⟩

/-- Mirror of `BigInt &BigInt::operator++()`: a negative value recurses as
`*this = -(--(-*this))` — the inner operand has positive sign, so the
recursive `operator--` call takes its non-negative branch `decCore`;
otherwise the carry loop runs directly. -/
def inc (b : BigInt) : BigInt :=
  match b.sign with
  | Sign.negative => negConst (decCore (negConst b))
  | Sign.positive => incCore b

/-- Mirror of `BigInt &BigInt::operator--()`: a negative value recurses as
`*this = -(++(-*this))` — the inner operand has positive sign, so the
recursive `operator++` call takes its non-negative branch `incCore`;
otherwise the borrow loop runs directly. -/
def dec (b : BigInt) : BigInt :=
  match b.sign with
  | Sign.negative => negConst (incCore (negConst b))
  | Sign.positive => decCore b

/-- Mirror of the static helper `BigInt::add`: the schoolbook column loop
that runs while both operands still have limbs.  Returns the produced
digits, the outgoing carry, and the unconsumed suffixes of both operands
(the final iterator positions). -/
def add : List Nat → List Nat → Bool → List Nat × Bool × List Nat × List Nat
  | x :: xs, y :: ys, carry =>
    let s := x + y + (if carry then 1 else 0)
    let r := add xs ys (if s > 9 then true else false)
    ((if s > 9 then s - 10 else s) :: r.1, r.2)
  | xs, ys, carry => ([], carry, xs, ys)

/-- Mirror of `BigInt::a_carryDown`: the columns where one operand is
exhausted; propagates the carry through the remaining limbs. -/
def a_carryDown : List Nat → Bool → List Nat × Bool
  | [], carry => ([], carry)
  | d :: ds, carry =>
    let s := d + (if carry then 1 else 0)
    let r := a_carryDown ds (if s > 9 then true else false)
    ((if s > 9 then s - 10 else s) :: r.1, r.2)

/-- The limb vector produced by the all-positive path of `operator+`:
the two-operand loop, the two carry-down loops, and the final
`push_back(1)` when a carry remains.  The source initializes
`bool carry = false`; the parameter is generalized for the proofs. -/
def addPosData (xs ys : List Nat) (c : Bool) : List Nat :=
  let r1 := add xs ys c
  let r2 := a_carryDown r1.2.2.1 r1.2.1
  let r3 := a_carryDown r1.2.2.2 r2.2
  r1.1 ++ r2.1 ++ r3.1 ++ (if r3.2 then [1] else [])

/-- Mirror of the borrow chain inside `BigInt::subtract`, acting on the
limbs strictly above the current column.  The chain turns zero limbs into
9 until it reaches a nonzero limb or the most-significant limb, then
decrements that limb; decrementing the most-significant limb wraps at 0
because `_data` holds `uint8_t` values. -/
def chain : List Nat → List Nat
  | [] => []
  | [d] => [(d + 255) % 256]
  | d :: rest => if d = 0 then 9 :: chain rest else (d - 1) :: rest

/-- One borrow in `BigInt::subtract`: the source reads
`lhs._data[it_lhs + 1]` before testing it, so when no limb exists above the
current column the access is out of range (`none`).  Otherwise the next
limb is decremented if nonzero, else the zero-run chain runs. -/
def borrowFix : List Nat → Option (List Nat)
  | [] => none
  | d :: rest => if d ≠ 0 then some ((d - 1) :: rest) else some (chain (d :: rest))

/-- Mirror of the static helper `BigInt::subtract`: the column loop that
runs while both operands have limbs; a column borrows when the (mutated)
minuend limb is smaller.  Returns the produced digits and the unconsumed
suffixes of the (mutated) minuend and of the subtrahend; `none` when the
out-of-range borrow read occurs. -/
def subtract : List Nat → List Nat → Option (List Nat × List Nat × List Nat)
  | xs, [] => some ([], xs, [])
  | [], ys => some ([], [], ys)
  | x :: xs, y :: ys =>
    if x < y then
      match borrowFix xs with
      | none => none
      | some xs2 =>
        match subtract xs2 ys with
        | none => none
        | some r => some ((x + 10 - y) :: r.1, r.2)
    else
      match subtract xs ys with
      | none => none
      | some r => some ((x - y) :: r.1, r.2)

/-- The all-positive core of `BigInt::operator+` (both signs positive):
the schoolbook loops producing `addPosData`, then `normalize`.  Wrapped in
`Option` because the mixed-sign operator paths that reuse it are
`Option`-valued. -/
def addPos (a b : BigInt) : Option BigInt :=
  some (normalize ⟨Sign.positive, addPosData a.data b.data false⟩)

/-- Mirror of `BigInt::operator-` invoked on two positive-signed operands:
the early `*this == rhs` test returning `BigInt{"0"}`, then compare
magnitudes (`if (_rhs > _lhs)`), run `subtract` with the larger operand as
minuend, append the leftover limbs of both operands (`s_carryDown` twice,
left operand first), and normalize. -/
def subPos (a b : BigInt) : Option BigInt :=
  if beq a b then some ⟨Sign.positive, [0]⟩
  else
    let sgn := if lt a b then Sign.negative else Sign.positive
    match (if lt a b then subtract b.data a.data else subtract a.data b.data) with
    | none => none
    | some r =>
      let tail := if lt a b then r.2.2 ++ r.2.1 else r.2.1 ++ r.2.2
      some (normalize ⟨sgn, r.1 ++ tail⟩)

/-- Mirror of `BigInt::operator+`: sign dispatch.  Mixed signs reduce to
`operator-` on two non-negative operands (`rhs - -*this` resp.
`*this - -rhs`), two negatives negate the positive sum
(`-(-*this + -rhs)`), and two positives run the schoolbook core.  The
recursive calls of the source land in the all-positive branches, which the
embedding inlines as `subPos` / `addPos`. -/
def opAdd (a b : BigInt) : Option BigInt :=
  match a.sign, b.sign with
  | Sign.negative, Sign.positive => subPos b (negConst a)
  | Sign.positive, Sign.negative => subPos a (negConst b)
  | Sign.negative, Sign.negative => (addPos (negConst a) (negConst b)).map negConst
  | Sign.positive, Sign.positive => addPos a b

/-- Mirror of `BigInt::operator-`: the `*this == rhs` test, then sign
dispatch.  A negative left operand gives `-(-*this + rhs)`, a negative
right operand gives `*this + -rhs`, two negatives give `-rhs - -*this`;
as in `opAdd` the recursive calls land in the all-positive branches. -/
def opSub (a b : BigInt) : Option BigInt :=
  if beq a b then some ⟨Sign.positive, [0]⟩
  else
    match a.sign, b.sign with
    | Sign.negative, Sign.positive => (addPos (negConst a) b).map negConst
    | Sign.positive, Sign.negative => addPos a (negConst b)
    | Sign.negative, Sign.negative => subPos (negConst b) (negConst a)
    | Sign.positive, Sign.positive => subPos a b

/-- Mirror of one inner row of `BigInt::longMultiplication`: multiply every
limb of the top operand by the bottom limb `nb`, propagating the carry, and
append the final carry if nonzero. -/
def mulRow (nb : Nat) : List Nat → Nat → List Nat
  | [], carry => if carry ≠ 0 then [carry] else []
  | t :: ts, carry =>
    let v := nb * t + carry
    if v > 9 then (v % 10) :: mulRow nb ts (v / 10) else v :: mulRow nb ts 0

/-- Mirror of the outer loop of `BigInt::longMultiplication`: one
intermediate product per bottom limb, shifted by its position with zero
limbs (`resize(products.size() - 1, 0)`), each default-constructed with
positive sign. -/
def buildProducts (top : List Nat) : List Nat → Nat → List BigInt
  | [], _ => []
  | nb :: rest, idx =>
    (⟨Sign.positive, List.replicate idx 0 ++ mulRow nb top 0⟩ : BigInt) ::
      buildProducts top rest (idx + 1)

/-- Mirror of the final `std::reduce(par, products.begin(), products.end(),
BigInt{})`: a left fold of `operator+` starting from the default
`BigInt{}` (the reduction operator is associative and commutative on the
all-positive intermediate products, so the parallel reduction order does
not matter). -/
def sumList : List BigInt → BigInt → Option BigInt
  | [], acc => some acc
  | p :: ps, acc =>
    match opAdd acc p with
    | none => none
    | some acc2 => sumList ps acc2

/-- Mirror of `BigInt::longMultiplication`: build the shifted intermediate
products, reduce them, set the result sign to the XOR of the operand
signs, and normalize. -/
def longMultiplication (bottom top : BigInt) : Option BigInt :=
  match sumList (buildProducts top.data bottom.data 0) defaultBigInt with
  | none => none
  | some s =>
    some (normalize
      ⟨if bottom.sign = top.sign then Sign.positive else Sign.negative, s.data⟩)

/-- Mirror of `BigInt::operator*`: the shorter operand goes on the bottom. -/
def opMul (a b : BigInt) : Option BigInt :=
  if a.data.length < b.data.length then longMultiplication a b
  else longMultiplication b a

/-- Result of `BigInt::longDivision`: either the `DivideByZero` throw or the
`{quotient, remainder}` pair.  (`operator/` and `operator%` both delegate to
`longDivision` and take `.first` and `.second` respectively.) -/
inductive DivOutcome where
  | divByZero
  | quotRem (q r : BigInt)
deriving DecidableEq

/-- Mirror of the `std::generate` filling `products[1..9]` in
`BigInt::longDivision`: `products[0] = 0` and each following entry adds the
(sign-stripped) divisor to an accumulator via `operator+=`. -/
def mkProductsAux (divisor : BigInt) : Nat → BigInt → Option (List BigInt)
  | 0, _ => some []
  | n + 1, acc =>
    match opAdd acc divisor with
    | none => none
    | some acc2 =>
      match mkProductsAux divisor n acc2 with
      | none => none
      | some rest => some (acc2 :: rest)

/-- The ten-entry multiple table `products` of `BigInt::longDivision`. -/
def mkProducts (divisor : BigInt) : Option (List BigInt) :=
  match mkProductsAux divisor 9 ⟨Sign.positive, [0]⟩ with
  | none => none
  | some rest => some ((⟨Sign.positive, [0]⟩ : BigInt) :: rest)

/-- Mirror of the main loop of `BigInt::longDivision`, one iteration per
dividend limb from most to least significant: bring the limb down into the
least-significant position of the remainder, normalize, read the trial
digit off the sorted multiple table with `std::upper_bound` (modelled as
the partition point of `!(remainder < p)`), append it to the quotient
digits, and subtract `m_divisor * multiple` from the remainder. -/
def divLoop (divisor : BigInt) (products : List BigInt) :
    List Nat → BigInt → List Nat → Option (BigInt × List Nat)
  | [], rem, qd => some (rem, qd)
  | d :: ds, rem, qd =>
    let rem2 := normalize ⟨rem.sign, d :: rem.data⟩
    let multiple := (products.countP (fun p => !(lt rem2 p))) - 1
    match opMul divisor ⟨Sign.positive, [multiple]⟩ with
    | none => none
    | some prod =>
      match opSub rem2 prod with
      | none => none
      | some rem3 => divLoop divisor products ds rem3 (qd ++ [multiple])

/-- Mirror of `BigInt::longDivision`: the `divisor == "0"` throw, the
sign-stripped working copies, the three shortcut cases (equal magnitudes,
divisor of larger magnitude, divisor of magnitude one), and the long
division main loop followed by the sign fixups `chooseQuotientSign` /
`chooseRemainderSign`. -/
def longDivision (dividend divisor : BigInt) : Option DivOutcome :=
  if beq divisor ⟨Sign.positive, [0]⟩ then some DivOutcome.divByZero
  else
    let mDividend : BigInt := ⟨Sign.positive, dividend.data⟩
    let mDivisor : BigInt := ⟨Sign.positive, divisor.data⟩
    let qSign := if dividend.sign = divisor.sign then Sign.positive else Sign.negative
    if beq mDivisor mDividend then
      some (DivOutcome.quotRem ⟨qSign, [1]⟩ ⟨Sign.positive, [0]⟩)
    else if lt mDividend mDivisor then
      some (DivOutcome.quotRem ⟨Sign.positive, [0]⟩ dividend)
    else if beq mDivisor ⟨Sign.positive, [1]⟩ then
      some (DivOutcome.quotRem ⟨qSign, mDividend.data⟩ ⟨Sign.positive, [0]⟩)
    else
      match mkProducts mDivisor with
      | none => none
      | some products =>
        match divLoop mDivisor products (mDividend.data.reverse) ⟨Sign.positive, []⟩ [] with
        | none => none
        | some (rem, qd) =>
          let quotient : BigInt := ⟨qSign, (normalize ⟨Sign.positive, qd.reverse⟩).data⟩
          let remSign := if beq rem ⟨Sign.positive, [0]⟩ then Sign.positive
                         else if dividend.sign = Sign.positive then Sign.positive
                         else Sign.negative
          some (DivOutcome.quotRem quotient ⟨remSign, rem.data⟩)

/-- Outcome of `BigInt::operator/` / `operator%`: the thrown error or the
returned value. -/
inductive DivResult where
  | error
  | val (b : BigInt)
deriving DecidableEq

/-- Mirror of `BigInt::operator/`: `longDivision(*this, rhs).first`. -/
def opDiv (a b : BigInt) : Option DivResult :=
  match longDivision a b with
  | none => none
  | some DivOutcome.divByZero => some DivResult.error
  | some (DivOutcome.quotRem q _) => some (DivResult.val q)

/-- Mirror of `BigInt::operator%`: `longDivision(*this, rhs).second`. -/
def opRem (a b : BigInt) : Option DivResult :=
  match longDivision a b with
  | none => none
  | some DivOutcome.divByZero => some DivResult.error
  | some (DivOutcome.quotRem _ r) => some (DivResult.val r)

/-- Every limb is a single decimal digit. -/
def goodDigits (l : List Nat) : Prop :=
  ∀ d ∈ l, d < 10

/-- The shape every `BigInt` reachable through the public interface has:
decimal limbs with no trailing zero limb (beyond a single `[0]`).  Note
this admits the empty limb vector (default construction) and a negative
sign on a zero limb vector (produced by the unary minuses), both of which
are reachable. -/
def wf (b : BigInt) : Prop :=
  goodDigits b.data ∧ trimTrailingZeros b.data = b.data

/-- A fixed point of `normalize` with decimal limbs; unlike `wf` this
excludes a negative sign on zero. -/
def canonical (b : BigInt) : Prop :=
  goodDigits b.data ∧ normalize b = b

instance (l : List Nat) : Decidable (goodDigits l) :=
  List.decidableBAll (fun d => d < 10) l

instance (b : BigInt) : Decidable (wf b) := by
  unfold wf
  infer_instance

instance (b : BigInt) : Decidable (canonical b) := by
  unfold canonical
  infer_instance

/-- The Karatsuba base-case cutover; the spec leaves it free ("around 10
decimal digits"). -/
def karatsubaThreshold : Nat := 10

/-- Number of decimal digits of a natural number. -/
def numDigits10 (n : Nat) : Nat :=
  (Nat.digits 10 n).length

/-- Modelled from the spec (§4.6 Multiplication), as the reference side of
the refinement claim C2: magnitudes below the threshold multiply directly;
otherwise split at `n = max(|x|, |y|) / 2` digits, compute the three
sub-products `P2 = x1*y1`, `P0 = x0*y0`,
`P1 = (x1+x0)*(y1+y0) - P2 - P0` recursively, and recombine as
`P2*B^(2n) + P1*B^n + P0`.  The fuel argument drives the recursion. -/
def kmulNat : Nat → Nat → Nat → Nat
  | 0, x, y => x * y
  | f + 1, x, y =>
    if numDigits10 x ≤ karatsubaThreshold ∧ numDigits10 y ≤ karatsubaThreshold then
      x * y
    else
      let n := max (numDigits10 x) (numDigits10 y) / 2
      let x1 := x / 10 ^ n
      let x0 := x % 10 ^ n
      let y1 := y / 10 ^ n
      let y0 := y % 10 ^ n
      let p2 := kmulNat f x1 y1
      let p0 := kmulNat f x0 y0
      let p1 := kmulNat f (x1 + x0) (y1 + y0) - p2 - p0
      p2 * 10 ^ (2 * n) + p1 * 10 ^ n + p0

/-- Body of the round-trip pattern of claim C5: the decimal numeral part
`0|[1-9][0-9]*`. -/
def digitsBody (l : List Char) : Bool :=
  l = ['0'] || (!l.isEmpty && !(l.head? = some '0') && l.all (fun c => c.isDigit))

/-- The round-trip pattern of claim C5: `-?(0|[1-9][0-9]*)`. -/
def specPattern (s : List Char) : Bool :=
  match s with
  | '-' :: rest => digitsBody rest
  | _ => digitsBody s

/-! ## Basic lemmas about digit lists -/

theorem digitsVal_append (x y : List Nat) :
    digitsVal (x ++ y) = digitsVal x + 10 ^ x.length * digitsVal y := by
  induction x with
  | nil => simp [digitsVal]
  | cons d ds ih =>
    simp [digitsVal, ih, List.length_cons, pow_succ]
    ring

theorem digitsVal_lt_pow (l : List Nat) (h : goodDigits l) :
    digitsVal l < 10 ^ l.length := by
  induction l with
  | nil => simp [digitsVal]
  | cons d ds ih =>
    have hd : d < 10 := h d (List.mem_cons_self d ds)
    have hds : goodDigits ds := fun e he => h e (List.mem_cons_of_mem d he)
    have := ih hds
    simp only [digitsVal, List.length_cons, pow_succ]
    omega

theorem digitsVal_replicate_zero (k : Nat) :
    digitsVal (List.replicate k 0) = 0 := by
  induction k with
  | zero => rfl
  | succ n ih => simp [List.replicate, digitsVal, ih]

theorem pow_le_digitsVal (l : List Nat) (hne : l ≠ [])
    (hlast : l.getLast? ≠ some 0) : 10 ^ (l.length - 1) ≤ digitsVal l := by
  induction l with
  | nil => exact absurd rfl hne
  | cons d ds ih =>
    cases ds with
    | nil =>
      have hodd : ([d] : List Nat).getLast? = some d := rfl
      rw [hodd] at hlast
      have hd : d ≠ 0 := fun h => hlast (by simp [h])
      simp [digitsVal]
      omega
    | cons e es =>
      have h1 : (e :: es : List Nat) ≠ [] := by simp
      have h2 : (e :: es).getLast? ≠ some 0 := by
        rw [List.getLast?_cons_cons] at hlast
        exact hlast
      have := ih h1 h2
      simp only [digitsVal, List.length_cons] at *
      have hlen : (e :: es).length - 1 + 1 = (e :: es).length := by
        simp [List.length_cons]
      calc 10 ^ ((e :: es).length + 1 - 1) = 10 ^ (e :: es).length := by
            simp
        _ = 10 ^ ((e :: es).length - 1) * 10 := by
            rw [← pow_succ, Nat.sub_add_cancel (by simp [List.length_cons])]
        _ ≤ digitsVal (e :: es) * 10 := by
            exact Nat.mul_le_mul_right 10 this
        _ ≤ d + 10 * digitsVal (e :: es) := by omega

/-! ## Lemmas about trimming and `normalize` -/

theorem popLeadingZeros_nil : popLeadingZeros [] = [] := rfl

theorem popLeadingZeros_ne_nil (u : List Nat) (h : u ≠ []) :
    popLeadingZeros u ≠ [] := by
  induction u with
  | nil => exact absurd rfl h
  | cons d ds ih =>
    cases ds with
    | nil =>
      cases d <;> simp [popLeadingZeros]
    | cons e es =>
      cases d with
      | zero => simpa [popLeadingZeros] using ih (by simp)
      | succ n => simp [popLeadingZeros]

theorem popLeadingZeros_shape (u : List Nat) :
    popLeadingZeros u = [] ∨
      ∃ h t, popLeadingZeros u = h :: t ∧ (h ≠ 0 ∨ t = []) := by
  induction u with
  | nil => exact Or.inl rfl
  | cons d ds ih =>
    cases ds with
    | nil =>
      refine Or.inr ⟨d, [], ?_, Or.inr rfl⟩
      cases d <;> rfl
    | cons e es =>
      cases d with
      | zero => simpa [popLeadingZeros] using ih
      | succ n => exact Or.inr ⟨n + 1, e :: es, rfl, Or.inl (by omega)⟩

theorem popLeadingZeros_idem (u : List Nat) :
    popLeadingZeros (popLeadingZeros u) = popLeadingZeros u := by
  rcases popLeadingZeros_shape u with h | ⟨a, t, heq, hcond⟩
  · rw [h]; rfl
  · rw [heq]
    rcases hcond with ha | ht
    · cases t with
      | nil => cases a <;> rfl
      | cons b bs =>
        cases a with
        | zero => exact absurd rfl ha
        | succ n => rfl
    · subst ht; cases a <;> rfl

theorem popLeadingZeros_sublist (u : List Nat) :
    (popLeadingZeros u).Sublist u := by
  induction u with
  | nil => simp [popLeadingZeros]
  | cons d ds ih =>
    cases ds with
    | nil =>
      cases d <;> simp [popLeadingZeros]
    | cons e es =>
      cases d with
      | zero =>
        simp only [popLeadingZeros]
        exact ih.cons 0
      | succ n => simp [popLeadingZeros]

theorem digitsVal_reverse_popLeadingZeros (u : List Nat) :
    digitsVal (popLeadingZeros u).reverse = digitsVal u.reverse := by
  induction u with
  | nil => rfl
  | cons d ds ih =>
    cases ds with
    | nil => cases d <;> rfl
    | cons e es =>
      cases d with
      | zero =>
        simp only [popLeadingZeros]
        rw [ih]
        simp [List.reverse_cons, digitsVal_append, digitsVal]
      | succ n => rfl

theorem trimTrailingZeros_digitsVal (l : List Nat) :
    digitsVal (trimTrailingZeros l) = digitsVal l := by
  have := digitsVal_reverse_popLeadingZeros l.reverse
  simpa [trimTrailingZeros] using this

theorem trimTrailingZeros_idem (l : List Nat) :
    trimTrailingZeros (trimTrailingZeros l) = trimTrailingZeros l := by
  simp [trimTrailingZeros, popLeadingZeros_idem]

theorem trimTrailingZeros_goodDigits (l : List Nat) (h : goodDigits l) :
    goodDigits (trimTrailingZeros l) := by
  intro d hd
  apply h
  have hsub := popLeadingZeros_sublist l.reverse
  have : d ∈ popLeadingZeros l.reverse := by
    simpa [trimTrailingZeros] using hd
  have := hsub.mem this
  simpa using this

theorem trimTrailingZeros_eq_nil_iff (l : List Nat) :
    trimTrailingZeros l = [] ↔ l = [] := by
  constructor
  · intro h
    by_contra hne
    have h1 : l.reverse ≠ [] := by simpa using hne
    have := popLeadingZeros_ne_nil l.reverse h1
    have h2 : (popLeadingZeros l.reverse).reverse = [] := h
    simp at h2
    exact this h2
  · intro h; subst h; rfl

theorem value_normalize (b : BigInt) : value (normalize b) = value b := by
  unfold normalize value
  by_cases h : trimTrailingZeros b.data = [] ∨ trimTrailingZeros b.data = [0]
  · have hz : digitsVal (trimTrailingZeros b.data) = 0 := by
      rcases h with h | h <;> simp [h, digitsVal]
    have hv : digitsVal b.data = 0 := by
      rw [← trimTrailingZeros_digitsVal]; exact hz
    simp only [h, if_pos]
    cases b.sign <;> simp [hz, hv]
  · simp only [h, if_neg, if_false]
    cases b.sign <;> simp [trimTrailingZeros_digitsVal]

theorem normalize_canonical (b : BigInt) (h : goodDigits b.data) :
    canonical (normalize b) := by
  constructor
  · exact trimTrailingZeros_goodDigits b.data h
  · show normalize (normalize b) = normalize b
    unfold normalize
    simp only [trimTrailingZeros_idem]
    by_cases hP : trimTrailingZeros b.data = [] ∨ trimTrailingZeros b.data = [0] <;>
      simp [hP]

theorem canonical_wf (b : BigInt) (h : canonical b) : wf b := by
  obtain ⟨hg, hn⟩ := h
  refine ⟨hg, ?_⟩
  have : (normalize b).data = b.data := by rw [hn]
  simpa [normalize] using this

theorem canonical_zero_sign (b : BigInt) (h : canonical b)
    (hz : b.data = [] ∨ b.data = [0]) : b.sign = Sign.positive := by
  obtain ⟨hg, hn⟩ := h
  have hd : trimTrailingZeros b.data = b.data := (canonical_wf b ⟨hg, hn⟩).2
  have : (normalize b).sign = b.sign := by rw [hn]
  unfold normalize at this
  rw [hd] at this
  rcases hz with hz | hz <;> simp [hz] at this <;> exact this.symm

theorem canonical_posData (d : List Nat) (hg : goodDigits d)
    (ht : trimTrailingZeros d = d) : canonical ⟨Sign.positive, d⟩ := by
  refine ⟨hg, ?_⟩
  unfold normalize
  simp [ht]

theorem value_negConst (b : BigInt) : value (negConst b) = -(value b) := by
  unfold value negConst
  cases h : b.sign <;> simp [h]

/-! ## Characterizing trimmed limb vectors -/

theorem trimmed_getLast (l : List Nat) (h : trimTrailingZeros l = l) :
    l = [] ∨ l = [0] ∨ l.getLast? ≠ some 0 := by
  by_cases hnil : l = []
  · exact Or.inl hnil
  by_cases hlast : l.getLast? = some 0
  · refine Or.inr (Or.inl ?_)
    have h2 : popLeadingZeros l.reverse = l.reverse := by
      have := congrArg List.reverse h
      simpa [trimTrailingZeros] using this
    obtain ⟨r, hr⟩ : ∃ r, l.reverse = r := ⟨l.reverse, rfl⟩
    cases r with
    | nil =>
      exact absurd (by simpa using congrArg List.reverse hr) hnil
    | cons d t =>
      have hd : d = 0 := by
        have hh : l.getLast? = some d := by
          rw [← List.head?_reverse, hr]; rfl
        rw [hlast] at hh
        exact (Option.some_inj.mp hh).symm
      subst hd
      cases t with
      | nil =>
        have := congrArg List.reverse hr
        simpa using this
      | cons e es =>
        exfalso
        rw [hr] at h2
        have hstep : popLeadingZeros (0 :: e :: es) = popLeadingZeros (e :: es) := rfl
        rw [hstep] at h2
        have hlen := congrArg List.length h2
        have hle := (popLeadingZeros_sublist (e :: es)).length_le
        simp only [List.length_cons] at hlen hle
        omega
  · exact Or.inr (Or.inr hlast)

theorem trimmed_dv_pos (l : List Nat) (h : trimTrailingZeros l = l)
    (h1 : l ≠ []) (h2 : l ≠ [0]) : 1 ≤ digitsVal l := by
  rcases trimmed_getLast l h with h3 | h3 | h3
  · exact absurd h3 h1
  · exact absurd h3 h2
  · have hp := pow_le_digitsVal l h1 h3
    have h4 : 1 ≤ 10 ^ (l.length - 1) := Nat.one_le_pow _ _ (by omega)
    exact le_trans h4 hp

theorem trimmed_dv_zero (l : List Nat) (h : trimTrailingZeros l = l)
    (hz : digitsVal l = 0) : l = [] ∨ l = [0] := by
  by_contra hc
  push_neg at hc
  have := trimmed_dv_pos l h hc.1 hc.2
  omega

theorem length_lt_dv_lt (x y : List Nat)
    (hy : trimTrailingZeros y = y)
    (hgx : goodDigits x) (hnx : x ≠ [])
    (hlen : x.length < y.length) : digitsVal x < digitsVal y := by
  have hxlen : 1 ≤ x.length := by
    cases hx2 : x with
    | nil => exact absurd hx2 hnx
    | cons a t => simp
  have hyne : y ≠ [] := by
    intro h; subst h; simp at hlen
  have hy0 : y ≠ [0] := by
    intro h; subst h
    have hx1 : x.length < 1 := by simpa using hlen
    omega
  have hylast : y.getLast? ≠ some 0 := by
    rcases trimmed_getLast y hy with h | h | h
    · exact absurd h hyne
    · exact absurd h hy0
    · exact h
  have h1 := pow_le_digitsVal y hyne hylast
  have h2 := digitsVal_lt_pow x hgx
  have h3 : 10 ^ x.length ≤ 10 ^ (y.length - 1) :=
    Nat.pow_le_pow_right (by omega) (by omega)
  calc digitsVal x < 10 ^ x.length := h2
    _ ≤ 10 ^ (y.length - 1) := h3
    _ ≤ digitsVal y := h1

theorem dv_inj_of_length (x y : List Nat) (hlen : x.length = y.length)
    (hgx : goodDigits x) (hgy : goodDigits y)
    (hdv : digitsVal x = digitsVal y) : x = y := by
  induction x generalizing y with
  | nil =>
    cases y with
    | nil => rfl
    | cons e es => simp at hlen
  | cons d ds ih =>
    cases y with
    | nil => simp at hlen
    | cons e es =>
      have hd : d < 10 := hgx d (by simp)
      have he : e < 10 := hgy e (by simp)
      simp only [digitsVal] at hdv
      have hde : d = e ∧ digitsVal ds = digitsVal es := by omega
      have htl : ds = es :=
        ih es (by simpa using hlen)
          (fun a ha => hgx a (List.mem_cons_of_mem d ha))
          (fun a ha => hgy a (List.mem_cons_of_mem e ha)) hde.2
      rw [hde.1, htl]

theorem dv_inj_trimmed (x y : List Nat)
    (hx : trimTrailingZeros x = x) (hy : trimTrailingZeros y = y)
    (hgx : goodDigits x) (hgy : goodDigits y)
    (hnx : x ≠ []) (hny : y ≠ [])
    (hdv : digitsVal x = digitsVal y) : x = y := by
  have hlen : x.length = y.length := by
    by_contra hne
    rcases Nat.lt_or_ge x.length y.length with h | h
    · have := length_lt_dv_lt x y hy hgx hnx h
      omega
    · have h2 : y.length < x.length := by omega
      have := length_lt_dv_lt y x hx hgy hny h2
      omega
  exact dv_inj_of_length x y hlen hgx hgy hdv

/-! ## Correctness of the comparison operators -/

theorem beq_iff (a b : BigInt) : beq a b = true ↔ a = b := by
  unfold beq
  constructor
  · intro h
    simp only [Bool.and_eq_true, decide_eq_true_eq] at h
    cases a; cases b
    simp only at h
    simp [h.1, h.2]
  · intro h; subst h; simp

theorem dvRev_cons (a : Nat) (u : List Nat) :
    digitsVal (a :: u).reverse = digitsVal u.reverse + 10 ^ u.length * a := by
  rw [List.reverse_cons, digitsVal_append]
  simp [digitsVal]

theorem goodDigits_reverse (u : List Nat) (h : goodDigits u) :
    goodDigits u.reverse := by
  intro d hd
  exact h d (by simpa using hd)

theorem dvRev_head_lt (u v : List Nat) (a b : Nat)
    (hlen : u.length = v.length) (hgu : goodDigits u)
    (hab : a < b) :
    digitsVal (a :: u).reverse < digitsVal (b :: v).reverse := by
  rw [dvRev_cons, dvRev_cons, ← hlen]
  have h1 : digitsVal u.reverse < 10 ^ u.length := by
    have := digitsVal_lt_pow u.reverse (goodDigits_reverse u hgu)
    simpa using this
  have h2 : 10 ^ u.length * (a + 1) ≤ 10 ^ u.length * b :=
    Nat.mul_le_mul_left _ (by omega)
  have h3 : 0 ≤ digitsVal v.reverse := Nat.zero_le _
  nlinarith

theorem lexLt_dvRev (u v : List Nat) (hlen : u.length = v.length)
    (hgu : goodDigits u) (hgv : goodDigits v) :
    lexLt u v = true ↔ digitsVal u.reverse < digitsVal v.reverse := by
  induction u generalizing v with
  | nil =>
    cases v with
    | nil => simp [lexLt]
    | cons e es => simp at hlen
  | cons d ds ih =>
    cases v with
    | nil => simp at hlen
    | cons e es =>
      have hlen2 : ds.length = es.length := by simpa using hlen
      have hgds : goodDigits ds := fun a ha => hgu a (List.mem_cons_of_mem d ha)
      have hges : goodDigits es := fun a ha => hgv a (List.mem_cons_of_mem e ha)
      by_cases hde : d < e
      · simp only [lexLt, hde, if_pos, true_iff]
        exact dvRev_head_lt ds es d e hlen2 hgds hde
      · by_cases hed : e < d
        · have hlt := dvRev_head_lt es ds e d hlen2.symm hges hed
          have hfalse : lexLt (d :: ds) (e :: es) = false := by
            simp [lexLt, hde, hed]
          rw [hfalse]
          simp only [Bool.false_eq_true, false_iff, not_lt]
          omega
        · have hde2 : d = e := by omega
          subst hde2
          have hiff := ih es hlen2 hgds hges
          have hstep : lexLt (d :: ds) (d :: es) = lexLt ds es := by
            simp [lexLt]
          rw [hstep, hiff, dvRev_cons, dvRev_cons, ← hlen2]
          constructor
          · intro h; omega
          · intro h; omega

theorem lt_posPos (x y : List Nat) :
    lt ⟨Sign.positive, x⟩ ⟨Sign.positive, y⟩ =
      if x.length ≠ y.length then decide (x.length < y.length)
      else lexLt x.reverse y.reverse := by
  unfold lt
  simp

theorem lt_negNeg (x y : List Nat) :
    lt ⟨Sign.negative, x⟩ ⟨Sign.negative, y⟩ =
      if x.length ≠ y.length then decide (y.length < x.length)
      else lexLt y.reverse x.reverse := by
  unfold lt
  simp

theorem lt_negPos (x y : List Nat) :
    lt ⟨Sign.negative, x⟩ ⟨Sign.positive, y⟩ = true := by
  unfold lt
  simp

theorem lt_posNeg (x y : List Nat) :
    lt ⟨Sign.positive, x⟩ ⟨Sign.negative, y⟩ = false := by
  unfold lt
  simp

theorem lt_nil_pos (y : List Nat) (h : y ≠ []) :
    lt ⟨Sign.positive, []⟩ ⟨Sign.positive, y⟩ = true := by
  rw [lt_posPos]
  have hlen : (0 : Nat) < y.length := List.length_pos.mpr h
  rw [if_pos (by simp; omega)]
  simp
  omega

theorem magLt_iff (x y : List Nat)
    (htx : trimTrailingZeros x = x) (hty : trimTrailingZeros y = y)
    (hgx : goodDigits x) (hgy : goodDigits y)
    (hnx : x ≠ []) (hny : y ≠ []) :
    ((if x.length ≠ y.length then decide (x.length < y.length)
      else lexLt x.reverse y.reverse) = true) ↔ digitsVal x < digitsVal y := by
  by_cases hlen : x.length = y.length
  · rw [if_neg (by omega)]
    have := lexLt_dvRev x.reverse y.reverse (by simpa using hlen)
      (goodDigits_reverse x hgx) (goodDigits_reverse y hgy)
    simpa using this
  · rw [if_pos hlen]
    simp only [decide_eq_true_eq]
    constructor
    · intro h
      exact length_lt_dv_lt x y hty hgx hnx h
    · intro h
      by_contra hc
      have h2 : y.length < x.length := by omega
      have := length_lt_dv_lt y x htx hgy hny h2
      omega

theorem magLt_iff_swap (x y : List Nat)
    (htx : trimTrailingZeros x = x) (hty : trimTrailingZeros y = y)
    (hgx : goodDigits x) (hgy : goodDigits y)
    (hnx : x ≠ []) (hny : y ≠ []) :
    ((if x.length ≠ y.length then decide (y.length < x.length)
      else lexLt y.reverse x.reverse) = true) ↔ digitsVal y < digitsVal x := by
  by_cases hlen : x.length = y.length
  · rw [if_neg (by omega)]
    have := lexLt_dvRev y.reverse x.reverse (by simpa using hlen.symm)
      (goodDigits_reverse y hgy) (goodDigits_reverse x hgx)
    simpa using this
  · rw [if_pos hlen]
    simp only [decide_eq_true_eq]
    constructor
    · intro h
      exact length_lt_dv_lt y x htx hgy hny h
    · intro h
      by_contra hc
      have h2 : x.length < y.length := by omega
      have := length_lt_dv_lt x y hty hgx hnx h2
      omega

theorem lt_correct (a b : BigInt) (ha : canonical a) (hb : canonical b)
    (hna : a.data ≠ []) (hnb : b.data ≠ []) :
    lt a b = true ↔ value a < value b := by
  obtain ⟨sa, x⟩ := a
  obtain ⟨sb, y⟩ := b
  simp only at hna hnb
  have htx : trimTrailingZeros x = x := (canonical_wf _ ha).2
  have hty : trimTrailingZeros y = y := (canonical_wf _ hb).2
  have hgx : goodDigits x := ha.1
  have hgy : goodDigits y := hb.1
  cases sa <;> cases sb
  · -- negative, negative
    have hx0 : x ≠ [0] := by
      intro h
      have := canonical_zero_sign _ ha (Or.inr (by simpa using h))
      simp at this
    have hy0 : y ≠ [0] := by
      intro h
      have := canonical_zero_sign _ hb (Or.inr (by simpa using h))
      simp at this
    rw [lt_negNeg, magLt_iff_swap x y htx hty hgx hgy hna hnb]
    show digitsVal y < digitsVal x ↔
      -(digitsVal x : Int) < -(digitsVal y : Int)
    omega
  · -- negative, positive
    have hx0 : x ≠ [0] := by
      intro h
      have := canonical_zero_sign _ ha (Or.inr (by simpa using h))
      simp at this
    have hxpos := trimmed_dv_pos x htx hna hx0
    rw [lt_negPos]
    constructor
    · intro _
      show -(digitsVal x : Int) < (digitsVal y : Int)
      omega
    · intro _; rfl
  · -- positive, negative
    have hy0 : y ≠ [0] := by
      intro h
      have := canonical_zero_sign _ hb (Or.inr (by simpa using h))
      simp at this
    have hypos := trimmed_dv_pos y hty hnb hy0
    rw [lt_posNeg]
    constructor
    · intro h; exact absurd h (by simp)
    · intro h
      exfalso
      have h2 : (digitsVal x : Int) < -(digitsVal y : Int) := h
      omega
  · -- positive, positive
    rw [lt_posPos, magLt_iff x y htx hty hgx hgy hna hnb]
    show digitsVal x < digitsVal y ↔
      (digitsVal x : Int) < (digitsVal y : Int)
    omega

/-! ## Claim theorems: the zero-encoding and increment defects -/

/-- Claim C3 (code bug): after normalization two distinct encodings of the
mathematical value zero still exist.  The default-constructed `BigInt{}`
keeps an empty limb vector while parsing `"0"` yields the single limb
`[0]`; both encodings are fixed points of `normalize`, both have value
zero, and `operator==` reports them unequal. -/
theorem c3_two_zero_encodings :
    value defaultBigInt = 0 ∧
    ofChars ['0'] = some ⟨Sign.positive, [0]⟩ ∧
    value ⟨Sign.positive, [0]⟩ = 0 ∧
    normalize defaultBigInt = defaultBigInt ∧
    normalize ⟨Sign.positive, [0]⟩ = ⟨Sign.positive, [0]⟩ ∧
    beq defaultBigInt ⟨Sign.positive, [0]⟩ = false := by
  refine ⟨rfl, ?_, rfl, rfl, rfl, rfl⟩
  rfl

/-- Claim C4 (code bug): the public unary minus applied to the parsed zero
produces a `BigInt` whose limbs are all zero but whose sign is negative,
violating the invariant that an all-zero-limb value has positive sign. -/
theorem c4_unary_minus_negative_zero :
    ofChars ['0'] = some ⟨Sign.positive, [0]⟩ ∧
    negConst ⟨Sign.positive, [0]⟩ = ⟨Sign.negative, [0]⟩ ∧
    (∀ d ∈ (negConst ⟨Sign.positive, [0]⟩).data, d = 0) ∧
    (negConst ⟨Sign.positive, [0]⟩).sign = Sign.negative := by
  refine ⟨rfl, rfl, ?_, rfl⟩
  decide

/-- Claim C5, counterexample: the string `"-0"` matches the claimed pattern
`-?(0|[1-9][0-9]*)` but does not round-trip: formatting the parsed value
yields `"0"`. -/
theorem c5_roundtrip_fails_on_minus_zero :
    specPattern ['-', '0'] = true ∧
    (ofChars ['-', '0']).map to_string = some ['0'] ∧
    (ofChars ['-', '0']).map to_string ≠ some ['-', '0'] := by
  refine ⟨rfl, rfl, ?_⟩
  decide

/-- Claim C6 (code bug): `longDivision` only recognizes the divisor
encoding `(positive, [0])` in its `divisor == "0"` test, so dividing by
the reachable negative zero `-BigInt{"0"}` (mathematical value zero) does
not raise `DivideByZero`: `operator/` returns `-9` and `operator%`
returns `5` for the dividend `5`.  The default-constructed zero
`BigInt{}` (empty limb vector) escapes the test the same way. -/
theorem c6_zero_divisor_not_caught :
    value (negConst ⟨Sign.positive, [0]⟩) = 0 ∧
    longDivision ⟨Sign.positive, [5]⟩ (negConst ⟨Sign.positive, [0]⟩) =
      some (DivOutcome.quotRem ⟨Sign.negative, [9]⟩ ⟨Sign.positive, [5]⟩) ∧
    opDiv ⟨Sign.positive, [5]⟩ (negConst ⟨Sign.positive, [0]⟩) =
      some (DivResult.val ⟨Sign.negative, [9]⟩) ∧
    opRem ⟨Sign.positive, [5]⟩ (negConst ⟨Sign.positive, [0]⟩) =
      some (DivResult.val ⟨Sign.positive, [5]⟩) ∧
    value defaultBigInt = 0 ∧
    longDivision ⟨Sign.positive, [5]⟩ defaultBigInt =
      some (DivOutcome.quotRem ⟨Sign.positive, [9]⟩ ⟨Sign.positive, [5]⟩) := by
  exact ⟨rfl, rfl, rfl, rfl, rfl, rfl⟩

/-- Claim C7 (code bug): the string constructor accepts the string
consisting only of `"-"`: the digit check `std::all_of` passes vacuously,
and the result is a zero-valued `BigInt` with empty limbs and (after
normalization) positive sign, instead of the parse error the
specification requires. -/
theorem c7_parse_accepts_bare_minus :
    ofChars ['-'] = some ⟨Sign.positive, []⟩ ∧
    value ⟨Sign.positive, []⟩ = 0 := by
  exact ⟨rfl, rfl⟩

/-- Claim C8, counterexample: the non-const unary `operator-()` mutates its
operand: after evaluating `-x` on the parsed `5`, the operand state has
changed (its sign was flipped in place). -/
theorem c8_unary_minus_mutates_operand :
    ofChars ['5'] = some ⟨Sign.positive, [5]⟩ ∧
    (negMut ⟨Sign.positive, [5]⟩).1 ≠ ⟨Sign.positive, [5]⟩ := by
  refine ⟨rfl, ?_⟩
  decide

/-- Claim C8, amended: the binary arithmetic operators are value-pure
(modelled as functions of the operand values), but the non-const unary
minus mutates its operand in place, flipping exactly the sign: the
post-state and the returned reference both equal the sign-flipped value. -/
theorem c8_amended_mutation (b : BigInt) :
    (negMut b).1 = negConst b ∧ (negMut b).2 = negConst b ∧
    value (negMut b).1 = -(value b) := by
  exact ⟨rfl, rfl, value_negConst b⟩

/-- Claim C8, amended, witness at the parsed value `5`. -/
theorem c8_amended_mutation_witness :
    (negMut ⟨Sign.positive, [5]⟩).1 = negConst ⟨Sign.positive, [5]⟩ ∧
    (negMut ⟨Sign.positive, [5]⟩).2 = negConst ⟨Sign.positive, [5]⟩ ∧
    value (negMut ⟨Sign.positive, [5]⟩).1 = -(value ⟨Sign.positive, [5]⟩) :=
  c8_amended_mutation ⟨Sign.positive, [5]⟩

/-- Claim C9 (code bug): pre-increment on the parsed `-1` yields a
negative zero (limbs `[0]`, sign negative) instead of the canonical
positive zero, and pre-decrement on the parsed `0` yields `9` instead of
`-1`: the borrow loop turns the single zero limb into `9` and never
flips the sign. -/
theorem c9_increment_decrement_defect :
    ofChars ['-', '1'] = some ⟨Sign.negative, [1]⟩ ∧
    inc ⟨Sign.negative, [1]⟩ = ⟨Sign.negative, [0]⟩ ∧
    (inc ⟨Sign.negative, [1]⟩).sign = Sign.negative ∧
    ofChars ['0'] = some ⟨Sign.positive, [0]⟩ ∧
    dec ⟨Sign.positive, [0]⟩ = ⟨Sign.positive, [9]⟩ ∧
    value (dec ⟨Sign.positive, [0]⟩) = 9 := by
  exact ⟨rfl, rfl, rfl, rfl, rfl, rfl⟩

/-! ## Correctness of the all-positive addition core -/

theorem normalize_pos_sign (d : List Nat) :
    (normalize ⟨Sign.positive, d⟩).sign = Sign.positive := by
  unfold normalize
  by_cases h : trimTrailingZeros d = [] ∨ trimTrailingZeros d = [0] <;> simp [h]

theorem normalize_data_dv (b : BigInt) :
    digitsVal (normalize b).data = digitsVal b.data := by
  unfold normalize
  simp [trimTrailingZeros_digitsVal]

theorem wf_pos_canonical (b : BigInt) (h : wf b) (hs : b.sign = Sign.positive) :
    canonical b := by
  obtain ⟨hg, ht⟩ := h
  refine ⟨hg, ?_⟩
  unfold normalize
  rw [ht]
  by_cases hz : b.data = [] ∨ b.data = [0]
  · simp only [hz, if_pos]
    cases b with
    | mk s d => simp only at hs ⊢; rw [hs]
  · simp only [hz, if_neg, if_false]

theorem wf_negConst (b : BigInt) (h : wf b) : wf (negConst b) := by
  obtain ⟨hg, ht⟩ := h
  exact ⟨hg, ht⟩

theorem negConst_sign_pos (b : BigInt) (h : b.sign = Sign.negative) :
    (negConst b).sign = Sign.positive := by
  unfold negConst
  rw [h]
  simp

theorem negConst_sign_neg (b : BigInt) (h : b.sign = Sign.positive) :
    (negConst b).sign = Sign.negative := by
  unfold negConst
  rw [h]
  simp

theorem a_carryDown_spec (l : List Nat) (c : Bool) (hg : goodDigits l) :
    goodDigits (a_carryDown l c).1 ∧ (a_carryDown l c).1.length = l.length ∧
    digitsVal (a_carryDown l c).1 +
        10 ^ l.length * (if (a_carryDown l c).2 then 1 else 0) =
      digitsVal l + (if c then 1 else 0) := by
  induction l generalizing c with
  | nil =>
    refine ⟨by intro d hd; simp [a_carryDown] at hd, rfl, ?_⟩
    simp [a_carryDown, digitsVal]
  | cons d ds ih =>
    have hd : d < 10 := hg d (by simp)
    have hgds : goodDigits ds := fun a ha => hg a (List.mem_cons_of_mem d ha)
    set s := d + (if c then 1 else 0) with hs
    set c2 := if s > 9 then true else false with hc2
    have ihs := ih c2 hgds
    have hstep : a_carryDown (d :: ds) c =
        ((if s > 9 then s - 10 else s) :: (a_carryDown ds c2).1,
          (a_carryDown ds c2).2) := rfl
    rw [hstep]
    refine ⟨?_, by simp [ihs.2.1], ?_⟩
    · intro a ha
      rcases List.mem_cons.mp ha with h | h
      · subst h
        have hbit : (if c then (1 : Nat) else 0) ≤ 1 := by
          by_cases hc : c <;> simp [hc]
        by_cases h9 : s > 9 <;> simp only [h9, ite_true, ite_false] <;> omega
      · exact ihs.1 a h
    · have hval := ihs.2.2
      have hc2val : (if c2 then (1 : Nat) else 0) = if s > 9 then 1 else 0 := by
        rw [hc2]
        by_cases h9 : s > 9 <;> simp [h9]
      rw [hc2val] at hval
      simp only [digitsVal, List.length_cons, pow_succ]
      have hassoc : (10 : Nat) ^ ds.length * 10 *
          (if (a_carryDown ds c2).2 then (1 : Nat) else 0) =
          10 * (10 ^ ds.length * (if (a_carryDown ds c2).2 then (1 : Nat) else 0)) := by
        ring
      rw [hassoc]
      generalize hQ : (10 : Nat) ^ ds.length *
          (if (a_carryDown ds c2).2 then (1 : Nat) else 0) = Q at hval ⊢
      by_cases h9 : s > 9 <;>
        simp only [h9, ite_true, ite_false] at hval ⊢ <;>
        omega

theorem addPosData_nil_left (ys : List Nat) (c : Bool) :
    addPosData [] ys c =
      (a_carryDown ys c).1 ++ (if (a_carryDown ys c).2 then [1] else []) := by
  unfold addPosData add
  simp [a_carryDown]

theorem addPosData_nil_right (x : Nat) (xs : List Nat) (c : Bool) :
    addPosData (x :: xs) [] c =
      (a_carryDown (x :: xs) c).1 ++
        (if (a_carryDown (x :: xs) c).2 then [1] else []) := by
  unfold addPosData add
  simp [a_carryDown]

theorem addPosData_cons (x y : Nat) (xs ys : List Nat) (c : Bool) :
    addPosData (x :: xs) (y :: ys) c =
      (if x + y + (if c then 1 else 0) > 9
        then x + y + (if c then 1 else 0) - 10
        else x + y + (if c then 1 else 0)) ::
        addPosData xs ys
          (if x + y + (if c then 1 else 0) > 9 then true else false) := rfl

theorem addPosData_spec (xs : List Nat) : ∀ (ys : List Nat) (c : Bool),
    goodDigits xs → goodDigits ys →
    goodDigits (addPosData xs ys c) ∧
      digitsVal (addPosData xs ys c) =
        digitsVal xs + digitsVal ys + (if c then 1 else 0) := by
  induction xs with
  | nil =>
    intro ys c hgx hgy
    rw [addPosData_nil_left]
    obtain ⟨h1, h2, h3⟩ := a_carryDown_spec ys c hgy
    constructor
    · intro a ha
      rcases List.mem_append.mp ha with h | h
      · exact h1 a h
      · cases hb : (a_carryDown ys c).2 with
        | false => simp [hb] at h
        | true =>
          simp [hb] at h
          omega
    · rw [digitsVal_append, h2]
      cases hb : (a_carryDown ys c).2 with
      | false =>
        simp only [hb] at h3
        simp [digitsVal] at h3 ⊢
        omega
      | true =>
        simp only [hb] at h3
        simp [digitsVal] at h3 ⊢
        omega
  | cons x xs ih =>
    intro ys c hgx hgy
    have hx : x < 10 := hgx x (by simp)
    have hgxs : goodDigits xs := fun a ha => hgx a (List.mem_cons_of_mem x ha)
    cases ys with
    | nil =>
      rw [addPosData_nil_right]
      obtain ⟨h1, h2, h3⟩ := a_carryDown_spec (x :: xs) c hgx
      constructor
      · intro a ha
        rcases List.mem_append.mp ha with h | h
        · exact h1 a h
        · cases hb : (a_carryDown (x :: xs) c).2 with
          | false => simp [hb] at h
          | true =>
            simp [hb] at h
            omega
      · rw [digitsVal_append, h2]
        cases hb : (a_carryDown (x :: xs) c).2 with
        | false =>
          simp only [hb] at h3
          simp [digitsVal] at h3 ⊢
          omega
        | true =>
          simp only [hb] at h3
          simp [digitsVal] at h3 ⊢
          omega
    | cons y ys =>
      have hy : y < 10 := hgy y (by simp)
      have hgys : goodDigits ys := fun a ha => hgy a (List.mem_cons_of_mem y ha)
      rw [addPosData_cons]
      set s := x + y + (if c then 1 else 0) with hs
      set c2 := if s > 9 then true else false with hc2
      obtain ⟨ih1, ih2⟩ := ih ys c2 hgxs hgys
      constructor
      · intro a ha
        rcases List.mem_cons.mp ha with h | h
        · subst h
          have hbit : (if c then (1 : Nat) else 0) ≤ 1 := by
            by_cases hc : c <;> simp [hc]
          by_cases h9 : s > 9 <;> simp only [h9, ite_true, ite_false] <;> omega
        · exact ih1 a h
      · simp only [digitsVal, ih2]
        have hc2val : (if c2 then (1 : Nat) else 0) = if s > 9 then 1 else 0 := by
          rw [hc2]
          by_cases h9 : s > 9 <;> simp [h9]
        rw [hc2val]
        by_cases h9 : s > 9 <;> simp only [h9, if_pos, if_neg, ite_true, ite_false] <;>
          omega

theorem addPos_spec (a b : BigInt) (hga : goodDigits a.data)
    (hgb : goodDigits b.data) :
    ∃ s, addPos a b = some s ∧ canonical s ∧ s.sign = Sign.positive ∧
      digitsVal s.data = digitsVal a.data + digitsVal b.data := by
  obtain ⟨h1, h2⟩ := addPosData_spec a.data b.data false hga hgb
  refine ⟨normalize ⟨Sign.positive, addPosData a.data b.data false⟩, rfl,
    normalize_canonical _ h1, normalize_pos_sign _, ?_⟩
  rw [normalize_data_dv]
  simp only [h2]
  simp

/-! ## Correctness of the borrow chain and the subtraction core -/

theorem chain_spec (l : List Nat) (hg : goodDigits l) (hpos : 1 ≤ digitsVal l) :
    goodDigits (chain l) ∧ (chain l).length = l.length ∧
      digitsVal (chain l) = digitsVal l - 1 := by
  induction l with
  | nil => simp [digitsVal] at hpos
  | cons d ds ih =>
    have hd : d < 10 := hg d (by simp)
    have hgds : goodDigits ds := fun a ha => hg a (List.mem_cons_of_mem d ha)
    cases ds with
    | nil =>
      have hd1 : 1 ≤ d := by
        simp [digitsVal] at hpos
        omega
      have hc : chain [d] = [(d + 255) % 256] := rfl
      rw [hc]
      have hmod : (d + 255) % 256 = d - 1 := by omega
      rw [hmod]
      refine ⟨?_, rfl, ?_⟩
      · intro a ha
        simp at ha
        omega
      · simp only [digitsVal]
        omega
    | cons e es =>
      by_cases hd0 : d = 0
      · subst hd0
        have hstep : chain (0 :: e :: es) = 9 :: chain (e :: es) := by
          simp [chain]
        have hpos2 : 1 ≤ digitsVal (e :: es) := by
          simp only [digitsVal] at hpos ⊢
          omega
        obtain ⟨ih1, ih2, ih3⟩ := ih hgds hpos2
        rw [hstep]
        refine ⟨?_, by simp [ih2], ?_⟩
        · intro a ha
          rcases List.mem_cons.mp ha with h | h
          · omega
          · exact ih1 a h
        · have h0 : digitsVal (0 :: e :: es) = 10 * digitsVal (e :: es) := by
            show 0 + 10 * digitsVal (e :: es) = 10 * digitsVal (e :: es)
            omega
          have h9 : digitsVal (9 :: chain (e :: es)) =
              9 + 10 * digitsVal (chain (e :: es)) := rfl
          rw [h9, ih3, h0]
          omega
      · have hstep : chain (d :: e :: es) = (d - 1) :: e :: es := by
          simp [chain, hd0]
        rw [hstep]
        refine ⟨?_, rfl, ?_⟩
        · intro a ha
          rcases List.mem_cons.mp ha with h | h
          · omega
          · exact hg a (List.mem_cons_of_mem d h)
        · simp only [digitsVal]
          omega

theorem borrowFix_spec (l : List Nat) (hg : goodDigits l)
    (hpos : 1 ≤ digitsVal l) :
    ∃ l2, borrowFix l = some l2 ∧ goodDigits l2 ∧ l2.length = l.length ∧
      digitsVal l2 = digitsVal l - 1 := by
  cases l with
  | nil => simp [digitsVal] at hpos
  | cons d rest =>
    by_cases hd0 : d = 0
    · subst hd0
      have hstep : borrowFix (0 :: rest) = some (chain (0 :: rest)) := by
        simp [borrowFix]
      obtain ⟨h1, h2, h3⟩ := chain_spec (0 :: rest) hg hpos
      exact ⟨chain (0 :: rest), hstep, h1, h2, h3⟩
    · have hstep : borrowFix (d :: rest) = some ((d - 1) :: rest) := by
        simp [borrowFix, hd0]
      refine ⟨(d - 1) :: rest, hstep, ?_, rfl, ?_⟩
      · intro a ha
        rcases List.mem_cons.mp ha with h | h
        · have := hg d (by simp)
          omega
        · exact hg a (List.mem_cons_of_mem d h)
      · simp only [digitsVal] at hpos ⊢
        omega

theorem subtract_spec (ys : List Nat) : ∀ (xs : List Nat),
    goodDigits xs → goodDigits ys → ys.length ≤ xs.length →
    digitsVal ys ≤ digitsVal xs →
    ∃ diff left, subtract xs ys = some (diff, left, []) ∧
      diff.length = ys.length ∧ goodDigits diff ∧ goodDigits left ∧
      left.length = xs.length - ys.length ∧
      digitsVal diff + 10 ^ ys.length * digitsVal left =
        digitsVal xs - digitsVal ys := by
  induction ys with
  | nil =>
    intro xs hgx _ _ _
    refine ⟨[], xs, ?_, rfl, by intro a ha; simp at ha, hgx, by simp, ?_⟩
    · cases xs <;> rfl
    · simp [digitsVal]
  | cons y ys ih =>
    intro xs hgx hgy hlen hval
    cases xs with
    | nil => simp at hlen
    | cons x xs =>
      have hx : x < 10 := hgx x (by simp)
      have hy : y < 10 := hgy y (by simp)
      have hgxs : goodDigits xs := fun a ha => hgx a (List.mem_cons_of_mem x ha)
      have hgys : goodDigits ys := fun a ha => hgy a (List.mem_cons_of_mem y ha)
      have hlen2 : ys.length ≤ xs.length := by simpa using hlen
      simp only [digitsVal] at hval
      by_cases hxy : x < y
      · -- borrow column
        have hxs1 : 1 ≤ digitsVal xs := by omega
        obtain ⟨xs2, hbf, hg2, hlen3, hdv2⟩ := borrowFix_spec xs hgxs hxs1
        have hys2 : digitsVal ys ≤ digitsVal xs2 := by omega
        obtain ⟨diff, left, hrec, hdlen, hgd, hgl, hllen, hdval⟩ :=
          ih xs2 hg2 hgys (by omega) hys2
        refine ⟨(x + 10 - y) :: diff, left, ?_, by simp [hdlen], ?_, hgl, ?_, ?_⟩
        · simp only [subtract, hxy, if_pos, hbf, hrec]
        · intro a ha
          rcases List.mem_cons.mp ha with h | h
          · omega
          · exact hgd a h
        · simp only [List.length_cons] at *
          omega
        · simp only [digitsVal, List.length_cons, pow_succ]
          have hassoc : (10 : Nat) ^ ys.length * 10 * digitsVal left =
              10 * (10 ^ ys.length * digitsVal left) := by ring
          rw [hassoc]
          generalize hQ : (10 : Nat) ^ ys.length * digitsVal left = Q at hdval ⊢
          omega
      · -- no borrow
        have hys2 : digitsVal ys ≤ digitsVal xs := by omega
        obtain ⟨diff, left, hrec, hdlen, hgd, hgl, hllen, hdval⟩ :=
          ih xs hgxs hgys hlen2 hys2
        refine ⟨(x - y) :: diff, left, ?_, by simp [hdlen], ?_, hgl, ?_, ?_⟩
        · simp only [subtract, hxy, if_neg, if_false, hrec]
        · intro a ha
          rcases List.mem_cons.mp ha with h | h
          · omega
          · exact hgd a h
        · simp only [List.length_cons] at *
          omega
        · simp only [digitsVal, List.length_cons, pow_succ]
          have hassoc : (10 : Nat) ^ ys.length * 10 * digitsVal left =
              10 * (10 ^ ys.length * digitsVal left) := by ring
          rw [hassoc]
          generalize hQ : (10 : Nat) ^ ys.length * digitsVal left = Q at hdval ⊢
          omega

/-! ## The all-positive subtraction path of `operator-` -/

theorem subtract_nil_right (xs : List Nat) :
    subtract xs [] = some ([], xs, []) := by
  cases xs <;> rfl

theorem beq_refl_data (x : List Nat) (s : Sign) :
    beq ⟨s, x⟩ ⟨s, x⟩ = true := by
  simp [beq]

theorem canonical_posList (x : List Nat) (h : canonical ⟨Sign.positive, x⟩) :
    goodDigits x ∧ trimTrailingZeros x = x := by
  obtain ⟨hg, hn⟩ := h
  refine ⟨hg, ?_⟩
  have := congrArg BigInt.data hn
  simpa [normalize] using this

theorem subPos_we (x y : List Nat)
    (hbeq : beq (⟨Sign.positive, x⟩ : BigInt) ⟨Sign.positive, y⟩ = false)
    (hlt : lt (⟨Sign.positive, x⟩ : BigInt) ⟨Sign.positive, y⟩ = false)
    (r : List Nat × List Nat × List Nat)
    (hsub : subtract x y = some r) :
    subPos ⟨Sign.positive, x⟩ ⟨Sign.positive, y⟩ =
      some (normalize ⟨Sign.positive, r.1 ++ (r.2.1 ++ r.2.2)⟩) := by
  unfold subPos
  rw [hbeq, hlt, hsub]
  simp

theorem subPos_wl (x y : List Nat)
    (hbeq : beq (⟨Sign.positive, x⟩ : BigInt) ⟨Sign.positive, y⟩ = false)
    (hlt : lt (⟨Sign.positive, x⟩ : BigInt) ⟨Sign.positive, y⟩ = true)
    (r : List Nat × List Nat × List Nat)
    (hsub : subtract y x = some r) :
    subPos ⟨Sign.positive, x⟩ ⟨Sign.positive, y⟩ =
      some (normalize ⟨Sign.negative, r.1 ++ (r.2.2 ++ r.2.1)⟩) := by
  unfold subPos
  rw [hbeq, hlt, hsub]
  simp

theorem subPos_correct (x y : List Nat)
    (hcx : canonical ⟨Sign.positive, x⟩) (hcy : canonical ⟨Sign.positive, y⟩)
    (hge : digitsVal y ≤ digitsVal x) :
    ∃ d, subPos (⟨Sign.positive, x⟩ : BigInt) ⟨Sign.positive, y⟩ = some d ∧
      canonical d ∧ d.sign = Sign.positive ∧ d.data ≠ [] ∧
      digitsVal d.data = digitsVal x - digitsVal y := by
  obtain ⟨hgx, htx⟩ := canonical_posList x hcx
  obtain ⟨hgy, hty⟩ := canonical_posList y hcy
  by_cases hxy : x = y
  · subst hxy
    refine ⟨⟨Sign.positive, [0]⟩, ?_, ?_, rfl, by simp, ?_⟩
    · unfold subPos
      rw [beq_refl_data]
      simp
    · exact canonical_posData [0] (by intro d hd; simp at hd; omega) rfl
    · simp only [digitsVal]
      omega
  · have hbeq : beq (⟨Sign.positive, x⟩ : BigInt) ⟨Sign.positive, y⟩ = false := by
      simp [beq, hxy]
    by_cases hny : y = []
    · subst hny
      have hnx : x ≠ [] := hxy
      have hlt : lt (⟨Sign.positive, x⟩ : BigInt) ⟨Sign.positive, []⟩ = false := by
        unfold lt
        have hlen : x.length ≠ 0 := by
          cases hx2 : x with
          | nil => exact absurd hx2 hnx
          | cons a t => simp
        simp [hlen]
      have hd := subPos_we x [] hbeq hlt ([], x, []) (subtract_nil_right x)
      refine ⟨normalize ⟨Sign.positive, [] ++ (x ++ [])⟩, hd, ?_, ?_, ?_, ?_⟩
      · exact normalize_canonical _ (by simpa using hgx)
      · exact normalize_pos_sign _
      · show trimTrailingZeros ([] ++ (x ++ [])) ≠ []
        simp only [List.nil_append, List.append_nil]
        intro hc
        exact hnx ((trimTrailingZeros_eq_nil_iff x).mp hc)
      · rw [normalize_data_dv]
        simp [digitsVal]
    · by_cases hnx : x = []
      · -- x = [], so digitsVal y = 0 and y ≠ []; canonical forces y = [0]
        subst hnx
        have hyz : digitsVal y = 0 := by
          simp [digitsVal] at hge
          omega
        have hy0 : y = [0] := by
          rcases trimmed_dv_zero y hty hyz with h | h
          · exact absurd h hny
          · exact h
        subst hy0
        refine ⟨⟨Sign.positive, [0]⟩, ?_, ?_, rfl, by simp, ?_⟩
        · rfl
        · exact canonical_posData [0] (by intro d hd; simp at hd; omega) rfl
        · simp [digitsVal]
      · -- both nonempty
        have hdvne : digitsVal x ≠ digitsVal y := by
          intro h
          exact hxy (dv_inj_trimmed x y htx hty hgx hgy hnx hny h)
        have hdvlt : digitsVal y < digitsVal x := by omega
        have hlt : lt (⟨Sign.positive, x⟩ : BigInt) ⟨Sign.positive, y⟩ = false := by
          cases hl : lt (⟨Sign.positive, x⟩ : BigInt) ⟨Sign.positive, y⟩
          · rfl
          · exfalso
            have := (lt_correct ⟨Sign.positive, x⟩ ⟨Sign.positive, y⟩ hcx hcy
              hnx hny).mp hl
            have h2 : (digitsVal x : Int) < (digitsVal y : Int) := this
            omega
        have hlenxy : y.length ≤ x.length := by
          by_contra hc
          have h2 : x.length < y.length := by omega
          have := length_lt_dv_lt x y hty hgx hnx h2
          omega
        obtain ⟨diff, left, hsub, hdlen, hgd, hgl, hllen, hdval⟩ :=
          subtract_spec y x hgx hgy hlenxy (by omega)
        have hd := subPos_we x y hbeq hlt (diff, left, []) hsub
        refine ⟨normalize ⟨Sign.positive, diff ++ (left ++ [])⟩, hd, ?_, ?_, ?_, ?_⟩
        · refine normalize_canonical _ ?_
          intro a ha
          simp only [List.append_nil] at ha
          rcases List.mem_append.mp ha with h | h
          · exact hgd a h
          · exact hgl a h
        · exact normalize_pos_sign _
        · show trimTrailingZeros (diff ++ (left ++ [])) ≠ []
          intro hc
          have hce : diff ++ (left ++ []) = [] :=
            (trimTrailingZeros_eq_nil_iff _).mp hc
          have hdne : diff ≠ [] := by
            intro hde
            rw [hde] at hdlen
            simp at hdlen
            exact hny (List.length_eq_zero.mp hdlen.symm)
          simp only [List.append_eq_nil] at hce
          exact hdne hce.1
        · rw [normalize_data_dv]
          simp only [List.append_nil, digitsVal_append, hdlen]
          exact hdval

theorem subPos_some (x y : List Nat)
    (hwx : wf (⟨Sign.positive, x⟩ : BigInt)) (hwy : wf (⟨Sign.positive, y⟩ : BigInt)) :
    (subPos (⟨Sign.positive, x⟩ : BigInt) ⟨Sign.positive, y⟩).isSome := by
  have hcx := wf_pos_canonical _ hwx rfl
  have hcy := wf_pos_canonical _ hwy rfl
  rcases le_or_lt (digitsVal y) (digitsVal x) with h | h
  · obtain ⟨d, hd, _, _, _, _⟩ := subPos_correct x y hcx hcy h
    simp [hd]
  · -- digitsVal x < digitsVal y: the minuend is y
    have hxy : x ≠ y := by
      intro he; subst he; omega
    have hbeq : beq (⟨Sign.positive, x⟩ : BigInt) ⟨Sign.positive, y⟩ = false := by
      simp [beq, hxy]
    have hny : y ≠ [] := by
      intro he; subst he
      simp [digitsVal] at h
    by_cases hnx : x = []
    · subst hnx
      have hlt : lt (⟨Sign.positive, []⟩ : BigInt) ⟨Sign.positive, y⟩ = true :=
        lt_nil_pos y hny
      have hd := subPos_wl [] y hbeq hlt ([], y, []) (subtract_nil_right y)
      simp [hd]
    · have hlt : lt (⟨Sign.positive, x⟩ : BigInt) ⟨Sign.positive, y⟩ = true := by
        rw [lt_correct ⟨Sign.positive, x⟩ ⟨Sign.positive, y⟩ hcx hcy hnx hny]
        show (digitsVal x : Int) < (digitsVal y : Int)
        omega
      have hgx := hcx.1
      have hgy := hcy.1
      have htx := (canonical_posList x hcx).2
      have hty := (canonical_posList y hcy).2
      have hlenyx : x.length ≤ y.length := by
        by_contra hc
        have h2 : y.length < x.length := by omega
        have := length_lt_dv_lt y x htx hgy hny h2
        omega
      obtain ⟨diff, left, hsub, _, _, _, _, _⟩ :=
        subtract_spec x y hgy hgx hlenyx (by omega)
      have hd := subPos_wl x y hbeq hlt (diff, left, []) hsub
      simp [hd]

/-! ## The sign-dispatch operators never perform the out-of-range read -/

theorem negConst_negData (x : List Nat) :
    negConst ⟨Sign.negative, x⟩ = ⟨Sign.positive, x⟩ := rfl

theorem negConst_posData (x : List Nat) :
    negConst ⟨Sign.positive, x⟩ = ⟨Sign.negative, x⟩ := rfl

theorem opAdd_some (a b : BigInt) (hwa : wf a) (hwb : wf b) :
    (opAdd a b).isSome := by
  obtain ⟨sa, x⟩ := a
  obtain ⟨sb, y⟩ := b
  have hwx : wf (⟨Sign.positive, x⟩ : BigInt) := ⟨hwa.1, hwa.2⟩
  have hwy : wf (⟨Sign.positive, y⟩ : BigInt) := ⟨hwb.1, hwb.2⟩
  cases sa <;> cases sb
  · -- negative, negative
    show ((addPos (negConst ⟨Sign.negative, x⟩) (negConst ⟨Sign.negative, y⟩)).map
      negConst).isSome
    simp [addPos]
  · -- negative, positive
    show (subPos ⟨Sign.positive, y⟩ (negConst ⟨Sign.negative, x⟩)).isSome
    rw [negConst_negData]
    exact subPos_some y x hwy hwx
  · -- positive, negative
    show (subPos ⟨Sign.positive, x⟩ (negConst ⟨Sign.negative, y⟩)).isSome
    rw [negConst_negData]
    exact subPos_some x y hwx hwy
  · -- positive, positive
    show (addPos ⟨Sign.positive, x⟩ ⟨Sign.positive, y⟩).isSome
    simp [addPos]

theorem opSub_some (a b : BigInt) (hwa : wf a) (hwb : wf b) :
    (opSub a b).isSome := by
  by_cases hbeq : beq a b = true
  · unfold opSub
    rw [hbeq]
    simp
  · have hbeqf : beq a b = false := by
      cases h : beq a b
      · rfl
      · exact absurd h hbeq
    obtain ⟨sa, x⟩ := a
    obtain ⟨sb, y⟩ := b
    have hwx : wf (⟨Sign.positive, x⟩ : BigInt) := ⟨hwa.1, hwa.2⟩
    have hwy : wf (⟨Sign.positive, y⟩ : BigInt) := ⟨hwb.1, hwb.2⟩
    unfold opSub
    rw [hbeqf]
    simp only [Bool.false_eq_true, if_false]
    cases sa <;> cases sb
    · show (subPos (negConst ⟨Sign.negative, y⟩) (negConst ⟨Sign.negative, x⟩)).isSome
      rw [negConst_negData, negConst_negData]
      exact subPos_some y x hwy hwx
    · show ((addPos (negConst ⟨Sign.negative, x⟩) ⟨Sign.positive, y⟩).map
        negConst).isSome
      simp [addPos]
    · show (addPos ⟨Sign.positive, x⟩ (negConst ⟨Sign.negative, y⟩)).isSome
      simp [addPos]
    · show (subPos ⟨Sign.positive, x⟩ ⟨Sign.positive, y⟩).isSome
      exact subPos_some x y hwx hwy

/-- Claim C10: binary subtraction never reads a limb out of range.  In the
embedding every access of `BigInt::subtract` is in range except the borrow
read `lhs._data[it_lhs + 1]`, whose failure is modelled as `none`; for
every pair of well-formed operands `operator-` (and through it every
invocation of the `subtract` helper, which is always called with the
larger-or-equal-magnitude operand as minuend and therefore with at least
as many limbs) completes without that out-of-range access. -/
theorem c10_subtraction_in_bounds (a b : BigInt) (hwa : wf a) (hwb : wf b) :
    (opSub a b).isSome :=
  opSub_some a b hwa hwb

/-- Claim C10, witness: subtraction of the parsed values 1000 - 999,
which exercises the borrow chain across the zero run, is in bounds. -/
theorem c10_subtraction_in_bounds_witness :
    wf (⟨Sign.positive, [0, 0, 0, 1]⟩ : BigInt) ∧
    wf (⟨Sign.positive, [9, 9, 9]⟩ : BigInt) ∧
    (opSub ⟨Sign.positive, [0, 0, 0, 1]⟩ ⟨Sign.positive, [9, 9, 9]⟩).isSome :=
  ⟨by decide, by decide,
    c10_subtraction_in_bounds ⟨Sign.positive, [0, 0, 0, 1]⟩
      ⟨Sign.positive, [9, 9, 9]⟩ (by decide) (by decide)⟩

/-! ## Correctness of `longMultiplication` -/

theorem normalize_sign_of_ne (s : Sign) (d : List Nat) (h : digitsVal d ≠ 0) :
    (normalize ⟨s, d⟩).sign = s := by
  unfold normalize
  have hz : ¬(trimTrailingZeros d = [] ∨ trimTrailingZeros d = [0]) := by
    intro hc
    apply h
    rw [← trimTrailingZeros_digitsVal d]
    rcases hc with hc | hc <;> simp [hc, digitsVal]
  simp [hz]

theorem normalize_sign_of_zero (s : Sign) (d : List Nat) (h : digitsVal d = 0) :
    (normalize ⟨s, d⟩).sign = Sign.positive := by
  unfold normalize
  have hz : trimTrailingZeros d = [] ∨ trimTrailingZeros d = [0] := by
    have h2 : digitsVal (trimTrailingZeros d) = 0 := by
      rw [trimTrailingZeros_digitsVal]; exact h
    exact trimmed_dv_zero (trimTrailingZeros d) (trimTrailingZeros_idem d) h2
  simp [hz]

theorem opAdd_posPos (a b : BigInt) (ha : a.sign = Sign.positive)
    (hb : b.sign = Sign.positive) : opAdd a b = addPos a b := by
  obtain ⟨sa, x⟩ := a
  obtain ⟨sb, y⟩ := b
  simp only at ha hb
  subst ha
  subst hb
  rfl

theorem mulRow_spec (nb : Nat) (hnb : nb ≤ 9) : ∀ (ts : List Nat) (c : Nat),
    goodDigits ts → c ≤ 9 →
    goodDigits (mulRow nb ts c) ∧
      digitsVal (mulRow nb ts c) = nb * digitsVal ts + c := by
  intro ts
  induction ts with
  | nil =>
    intro c hg hc
    constructor
    · intro a ha
      by_cases h0 : c ≠ 0 <;> simp [mulRow, h0] at ha
      omega
    · by_cases h0 : c ≠ 0
      · simp [mulRow, h0, digitsVal]
      · simp [mulRow, h0, digitsVal]
        omega
  | cons t ts ih =>
    intro c hg hc
    have ht : t < 10 := hg t (by simp)
    have hgts : goodDigits ts := fun a ha => hg a (List.mem_cons_of_mem t ha)
    have hbound : nb * t ≤ 81 := by
      calc nb * t ≤ 9 * 9 := Nat.mul_le_mul hnb (by omega)
        _ = 81 := by norm_num
    by_cases h9 : nb * t + c > 9
    · have heq : mulRow nb (t :: ts) c =
          ((nb * t + c) % 10) :: mulRow nb ts ((nb * t + c) / 10) := by
        simp [mulRow, h9]
      obtain ⟨ih1, ih2⟩ := ih ((nb * t + c) / 10) hgts (by omega)
      rw [heq]
      constructor
      · intro a ha
        rcases List.mem_cons.mp ha with h | h
        · omega
        · exact ih1 a h
      · simp only [digitsVal, ih2]
        have hexp : nb * (t + 10 * digitsVal ts) =
            nb * t + 10 * (nb * digitsVal ts) := by ring
        rw [hexp]
        generalize hW : nb * digitsVal ts = W
        omega
    · have heq : mulRow nb (t :: ts) c = (nb * t + c) :: mulRow nb ts 0 := by
        simp [mulRow, h9]
      obtain ⟨ih1, ih2⟩ := ih 0 hgts (by omega)
      rw [heq]
      constructor
      · intro a ha
        rcases List.mem_cons.mp ha with h | h
        · omega
        · exact ih1 a h
      · simp only [digitsVal, ih2]
        have hexp : nb * (t + 10 * digitsVal ts) =
            nb * t + 10 * (nb * digitsVal ts) := by ring
        rw [hexp]
        generalize hW : nb * digitsVal ts = W
        omega

theorem sumList_spec : ∀ (ps : List BigInt) (acc : BigInt),
    (∀ p ∈ ps, p.sign = Sign.positive ∧ goodDigits p.data) →
    acc.sign = Sign.positive → goodDigits acc.data →
    ∃ s, sumList ps acc = some s ∧ s.sign = Sign.positive ∧
      goodDigits s.data ∧
      digitsVal s.data =
        digitsVal acc.data + (ps.map (fun p => digitsVal p.data)).sum := by
  intro ps
  induction ps with
  | nil =>
    intro acc _ hs hg
    exact ⟨acc, rfl, hs, hg, by simp⟩
  | cons p ps ih =>
    intro acc hps hs hg
    have hp := hps p (by simp)
    obtain ⟨s1, hs1, hcan1, hsign1, hval1⟩ := addPos_spec acc p hg hp.2
    have hstep : sumList (p :: ps) acc = sumList ps s1 := by
      show (match opAdd acc p with
        | none => none
        | some acc2 => sumList ps acc2) = sumList ps s1
      rw [opAdd_posPos acc p hs hp.1, hs1]
    obtain ⟨s, hsf, hsignf, hsgf, hvalf⟩ :=
      ih s1 (fun q hq => hps q (List.mem_cons_of_mem p hq)) hsign1 hcan1.1
    refine ⟨s, ?_, hsignf, hsgf, ?_⟩
    · rw [hstep]; exact hsf
    · rw [hvalf, hval1]
      simp only [List.map_cons, List.sum_cons]
      omega

theorem buildProducts_mem (top : List Nat) (hgt : goodDigits top) :
    ∀ (bottom : List Nat) (idx : Nat), goodDigits bottom →
    ∀ p ∈ buildProducts top bottom idx,
      p.sign = Sign.positive ∧ goodDigits p.data := by
  intro bottom
  induction bottom with
  | nil => intro idx _ p hp; simp [buildProducts] at hp
  | cons nb rest ih =>
    intro idx hgb p hp
    have hnb : nb < 10 := hgb nb (by simp)
    have hgrest : goodDigits rest := fun a ha => hgb a (List.mem_cons_of_mem nb ha)
    rcases List.mem_cons.mp hp with h | h
    · subst h
      refine ⟨rfl, ?_⟩
      intro a ha
      simp only at ha
      rcases List.mem_append.mp ha with h | h
      · have := List.eq_of_mem_replicate h
        omega
      · exact (mulRow_spec nb (by omega) top 0 hgt (by omega)).1 a h
    · exact ih (idx + 1) hgrest p h

theorem buildProducts_sum (top : List Nat) (hgt : goodDigits top) :
    ∀ (bottom : List Nat) (idx : Nat), goodDigits bottom →
    ((buildProducts top bottom idx).map (fun p => digitsVal p.data)).sum =
      10 ^ idx * (digitsVal bottom * digitsVal top) := by
  intro bottom
  induction bottom with
  | nil => intro idx _; simp [buildProducts, digitsVal]
  | cons nb rest ih =>
    intro idx hgb
    have hnb : nb < 10 := hgb nb (by simp)
    have hgrest : goodDigits rest := fun a ha => hgb a (List.mem_cons_of_mem nb ha)
    have hrow := (mulRow_spec nb (by omega) top 0 hgt (by omega)).2
    show digitsVal (List.replicate idx 0 ++ mulRow nb top 0) +
        ((buildProducts top rest (idx + 1)).map (fun p => digitsVal p.data)).sum =
      10 ^ idx * (digitsVal (nb :: rest) * digitsVal top)
    rw [digitsVal_append, digitsVal_replicate_zero, List.length_replicate,
      ih (idx + 1) hgrest, hrow]
    simp only [digitsVal, pow_succ]
    ring

theorem longMultiplication_spec (bottom top : BigInt)
    (hgb : goodDigits bottom.data) (hgt : goodDigits top.data) :
    ∃ c, longMultiplication bottom top = some c ∧ canonical c ∧
      digitsVal c.data = digitsVal bottom.data * digitsVal top.data ∧
      (digitsVal c.data ≠ 0 →
        c.sign = (if bottom.sign = top.sign then Sign.positive else Sign.negative)) ∧
      (digitsVal c.data = 0 → c.sign = Sign.positive) := by
  obtain ⟨s, hs, hsign, hsg, hval⟩ :=
    sumList_spec (buildProducts top.data bottom.data 0) defaultBigInt
      (buildProducts_mem top.data hgt bottom.data 0 hgb) rfl
      (by intro a ha; simp [defaultBigInt] at ha)
  have hsum : digitsVal s.data = digitsVal bottom.data * digitsVal top.data := by
    rw [hval, buildProducts_sum top.data hgt bottom.data 0 hgb]
    simp [defaultBigInt, digitsVal]
  set sgn := if bottom.sign = top.sign then Sign.positive else Sign.negative with hsgn
  refine ⟨normalize ⟨sgn, s.data⟩, ?_, normalize_canonical _ hsg, ?_, ?_, ?_⟩
  · unfold longMultiplication
    rw [hs]
  · rw [normalize_data_dv]
    exact hsum
  · intro hne
    rw [normalize_data_dv] at hne
    exact normalize_sign_of_ne sgn s.data hne
  · intro hz
    rw [normalize_data_dv] at hz
    exact normalize_sign_of_zero sgn s.data hz

theorem opMul_spec (a b : BigInt) (hga : goodDigits a.data)
    (hgb : goodDigits b.data) :
    ∃ c, opMul a b = some c ∧ canonical c ∧
      digitsVal c.data = digitsVal a.data * digitsVal b.data ∧
      (digitsVal c.data ≠ 0 →
        c.sign = (if a.sign = b.sign then Sign.positive else Sign.negative)) ∧
      (digitsVal c.data = 0 → c.sign = Sign.positive) := by
  unfold opMul
  by_cases hlen : a.data.length < b.data.length
  · rw [if_pos hlen]
    obtain ⟨c, hc, h1, h2, h3, h4⟩ := longMultiplication_spec a b hga hgb
    refine ⟨c, hc, h1, by rw [h2], ?_, h4⟩
    intro hne
    exact h3 hne
  · rw [if_neg hlen]
    obtain ⟨c, hc, h1, h2, h3, h4⟩ := longMultiplication_spec b a hgb hga
    refine ⟨c, hc, h1, by rw [h2]; ring, ?_, h4⟩
    intro hne
    rw [h3 hne]
    by_cases hss : a.sign = b.sign
    · simp [hss]
    · have hss2 : ¬(b.sign = a.sign) := fun h => hss h.symm
      simp [hss, hss2]

/-! ## The Karatsuba reference of the specification -/

theorem kmulNat_eq (f : Nat) : ∀ (x y : Nat), kmulNat f x y = x * y := by
  induction f with
  | zero => intro x y; rfl
  | succ f ih =>
    intro x y
    unfold kmulNat
    by_cases h : numDigits10 x ≤ karatsubaThreshold ∧
        numDigits10 y ≤ karatsubaThreshold
    · simp [h]
    · simp only [h, if_neg, if_false]
      set n := max (numDigits10 x) (numDigits10 y) / 2 with hn
      set x1 := x / 10 ^ n with hx1
      set x0 := x % 10 ^ n with hx0
      set y1 := y / 10 ^ n with hy1
      set y0 := y % 10 ^ n with hy0
      rw [ih, ih, ih]
      have hx : 10 ^ n * x1 + x0 = x := Nat.div_add_mod x (10 ^ n)
      have hy : 10 ^ n * y1 + y0 = y := Nat.div_add_mod y (10 ^ n)
      have hp1 : (x1 + x0) * (y1 + y0) - x1 * y1 - x0 * y0 =
          x1 * y0 + x0 * y1 := by
        have hexp : (x1 + x0) * (y1 + y0) =
            x1 * y1 + (x1 * y0 + x0 * y1) + x0 * y0 := by ring
        rw [hexp]
        generalize x1 * y1 = A
        generalize x1 * y0 + x0 * y1 = B
        generalize x0 * y0 = C
        omega
      rw [hp1]
      have h2n : (10 : Nat) ^ (2 * n) = 10 ^ n * 10 ^ n := by
        rw [two_mul, pow_add]
      rw [h2n, ← hx, ← hy]
      ring

/-- Claim C2 (refinement): for nonzero well-formed operands, the magnitude
computed by `operator*` (schoolbook `longMultiplication` in the source)
coincides with the result of the specification's Karatsuba recursion
`kmulNat` (split at `n = max(|x|,|y|)/2`, three recursive sub-products
`P2`, `P0`, `P1 = (x1+x0)(y1+y0)-P2-P0`, recombined as
`P2·B^2n + P1·B^n + P0`, direct multiplication below the threshold), and
the result sign is the XOR of the operand signs.  The equivalence is
extensional: the source computes the same function the spec's recursion
describes. -/
theorem c2_karatsuba_refinement (a b : BigInt) (hwa : wf a) (hwb : wf b)
    (hna : value a ≠ 0) (hnb : value b ≠ 0) :
    ∃ c, opMul a b = some c ∧
      digitsVal c.data =
        kmulNat (a.data.length + b.data.length)
          (digitsVal a.data) (digitsVal b.data) ∧
      c.sign = (if a.sign = b.sign then Sign.positive else Sign.negative) := by
  have hda : digitsVal a.data ≠ 0 := by
    intro h
    apply hna
    unfold value
    cases a.sign <;> simp [h]
  have hdb : digitsVal b.data ≠ 0 := by
    intro h
    apply hnb
    unfold value
    cases b.sign <;> simp [h]
  obtain ⟨c, hc, _, h2, h3, _⟩ := opMul_spec a b hwa.1 hwb.1
  refine ⟨c, hc, ?_, ?_⟩
  · rw [kmulNat_eq, h2]
  · apply h3
    rw [h2]
    exact Nat.mul_ne_zero hda hdb

/-- Claim C2, witness at the parsed values 99 * -85. -/
theorem c2_karatsuba_refinement_witness :
    wf (⟨Sign.positive, [9, 9]⟩ : BigInt) ∧
    wf (⟨Sign.negative, [5, 8]⟩ : BigInt) ∧
    value (⟨Sign.positive, [9, 9]⟩ : BigInt) ≠ 0 ∧
    value (⟨Sign.negative, [5, 8]⟩ : BigInt) ≠ 0 ∧
    (∃ c, opMul ⟨Sign.positive, [9, 9]⟩ ⟨Sign.negative, [5, 8]⟩ = some c ∧
      digitsVal c.data =
        kmulNat ((⟨Sign.positive, [9, 9]⟩ : BigInt).data.length +
            (⟨Sign.negative, [5, 8]⟩ : BigInt).data.length)
          (digitsVal (⟨Sign.positive, [9, 9]⟩ : BigInt).data)
          (digitsVal (⟨Sign.negative, [5, 8]⟩ : BigInt).data) ∧
      c.sign = (if (⟨Sign.positive, [9, 9]⟩ : BigInt).sign =
          (⟨Sign.negative, [5, 8]⟩ : BigInt).sign
        then Sign.positive else Sign.negative)) :=
  ⟨by decide, by decide, by decide, by decide,
    c2_karatsuba_refinement ⟨Sign.positive, [9, 9]⟩ ⟨Sign.negative, [5, 8]⟩
      (by decide) (by decide) (by decide) (by decide)⟩

/-! ## Correctness of `longDivision` -/

theorem opSub_posPos (x y : List Nat) :
    opSub ⟨Sign.positive, x⟩ ⟨Sign.positive, y⟩ =
      subPos ⟨Sign.positive, x⟩ ⟨Sign.positive, y⟩ := by
  show (if beq (⟨Sign.positive, x⟩ : BigInt) ⟨Sign.positive, y⟩ then
      some (⟨Sign.positive, [0]⟩ : BigInt)
    else subPos ⟨Sign.positive, x⟩ ⟨Sign.positive, y⟩) =
    subPos ⟨Sign.positive, x⟩ ⟨Sign.positive, y⟩
  by_cases hbeq : beq (⟨Sign.positive, x⟩ : BigInt) ⟨Sign.positive, y⟩ = true
  · rw [if_pos hbeq]
    unfold subPos
    rw [hbeq]
    simp
  · have hbeqf : beq (⟨Sign.positive, x⟩ : BigInt) ⟨Sign.positive, y⟩ = false := by
      cases h : beq (⟨Sign.positive, x⟩ : BigInt) ⟨Sign.positive, y⟩
      · rfl
      · exact absurd h hbeq
    rw [hbeqf]
    simp

theorem mkProductsAux_spec (divisor : BigInt) (hcd : canonical divisor)
    (hsd : divisor.sign = Sign.positive) :
    ∀ (n : Nat) (acc : BigInt), canonical acc → acc.sign = Sign.positive →
    ∃ l, mkProductsAux divisor n acc = some l ∧ l.length = n ∧
      ∀ i (h : i < l.length),
        canonical (l.get ⟨i, h⟩) ∧ (l.get ⟨i, h⟩).sign = Sign.positive ∧
        digitsVal (l.get ⟨i, h⟩).data =
          digitsVal acc.data + (i + 1) * digitsVal divisor.data := by
  intro n
  induction n with
  | zero =>
    intro acc _ _
    exact ⟨[], rfl, rfl, by intro i h; simp at h⟩
  | succ n ih =>
    intro acc hca hsa
    obtain ⟨acc2, hacc2, hcan2, hsign2, hval2⟩ :=
      addPos_spec acc divisor hca.1 hcd.1
    have hstep : opAdd acc divisor = some acc2 := by
      rw [opAdd_posPos acc divisor hsa hsd]
      exact hacc2
    obtain ⟨rest, hrest, hlen, hchar⟩ := ih acc2 hcan2 hsign2
    refine ⟨acc2 :: rest, ?_, by simp [hlen], ?_⟩
    · show (match opAdd acc divisor with
        | none => none
        | some acc3 =>
          match mkProductsAux divisor n acc3 with
          | none => none
          | some rest2 => some (acc3 :: rest2)) = some (acc2 :: rest)
      rw [hstep]
      show (match mkProductsAux divisor n acc2 with
        | none => none
        | some rest2 => some (acc2 :: rest2)) = some (acc2 :: rest)
      rw [hrest]
    · intro i h
      cases i with
      | zero =>
        refine ⟨hcan2, hsign2, ?_⟩
        show digitsVal acc2.data =
          digitsVal acc.data + (0 + 1) * digitsVal divisor.data
        rw [hval2]
        ring
      | succ i =>
        have h2 : i < rest.length := by
          simp at h
          omega
        have hi := hchar i h2
        refine ⟨hi.1, hi.2.1, ?_⟩
        show digitsVal (rest.get ⟨i, h2⟩).data =
          digitsVal acc.data + (i + 1 + 1) * digitsVal divisor.data
        rw [hi.2.2, hval2]
        ring

theorem mkProducts_spec (divisor : BigInt) (hcd : canonical divisor)
    (hsd : divisor.sign = Sign.positive) (hD1 : 1 ≤ digitsVal divisor.data) :
    ∃ ps, mkProducts divisor = some ps ∧ ps.length = 10 ∧
      ∀ i (h : i < ps.length),
        canonical (ps.get ⟨i, h⟩) ∧ (ps.get ⟨i, h⟩).sign = Sign.positive ∧
        (ps.get ⟨i, h⟩).data ≠ [] ∧
        digitsVal (ps.get ⟨i, h⟩).data = i * digitsVal divisor.data := by
  have hz : canonical (⟨Sign.positive, [0]⟩ : BigInt) :=
    canonical_posData [0] (by intro d hd; simp at hd; omega) rfl
  obtain ⟨rest, hrest, hlen, hchar⟩ :=
    mkProductsAux_spec divisor hcd hsd 9 ⟨Sign.positive, [0]⟩ hz rfl
  refine ⟨(⟨Sign.positive, [0]⟩ : BigInt) :: rest, ?_, by simp [hlen], ?_⟩
  · unfold mkProducts
    rw [hrest]
  · intro i h
    cases i with
    | zero =>
      refine ⟨hz, rfl, by simp, ?_⟩
      show digitsVal [0] = 0 * digitsVal divisor.data
      simp [digitsVal]
    | succ i =>
      have h2 : i < rest.length := by
        simp at h
        omega
      have hi := hchar i h2
      have hval : digitsVal (rest.get ⟨i, h2⟩).data =
          (i + 1) * digitsVal divisor.data := by
        rw [hi.2.2]
        simp [digitsVal]
      refine ⟨hi.1, hi.2.1, ?_, hval⟩
      intro hc
      have hc2 : (rest.get ⟨i, h2⟩).data = [] := hc
      have : digitsVal (rest.get ⟨i, h2⟩).data = 0 := by
        rw [hc2]
        rfl
      rw [hval] at this
      have hge : 1 * 1 ≤ (i + 1) * digitsVal divisor.data :=
        Nat.mul_le_mul (by omega) hD1
      omega

theorem countP_char : ∀ (l : List BigInt) (pred : BigInt → Bool) (g : Nat → Bool),
    (∀ i (h : i < l.length), pred (l.get ⟨i, h⟩) = g i) →
    l.countP pred = (List.range l.length).countP g := by
  intro l
  induction l with
  | nil => intro pred g _; rfl
  | cons a l ih =>
    intro pred g hchar
    have h0 : pred a = g 0 := hchar 0 (by simp)
    have hrest : l.countP pred = (List.range l.length).countP (fun i => g (i + 1)) := by
      refine ih pred (fun i => g (i + 1)) ?_
      intro i h
      have := hchar (i + 1) (by simp; omega)
      simpa using this
    rw [List.countP_cons, List.length_cons, List.range_succ_eq_map,
      List.countP_cons, List.countP_map, h0, hrest]
    congr 1

theorem countP_le_range10 (K : Nat) (hK : K ≤ 9) :
    (List.range 10).countP (fun i => decide (i ≤ K)) = K + 1 := by
  interval_cases K <;> decide

theorem divLoop_cons (divisor : BigInt) (ps : List BigInt) (d : Nat)
    (ds : List Nat) (rem : BigInt) (qd : List Nat) :
    divLoop divisor ps (d :: ds) rem qd =
      (match opMul divisor
          ⟨Sign.positive,
            [(ps.countP
                (fun p => !(lt (normalize ⟨rem.sign, d :: rem.data⟩) p))) - 1]⟩ with
      | none => none
      | some prod =>
        match opSub (normalize ⟨rem.sign, d :: rem.data⟩) prod with
        | none => none
        | some rem3 =>
          divLoop divisor ps ds rem3
            (qd ++ [(ps.countP
                (fun p => !(lt (normalize ⟨rem.sign, d :: rem.data⟩) p))) - 1])) := rfl

theorem eta_pos (b : BigInt) (h : b.sign = Sign.positive) :
    b = ⟨Sign.positive, b.data⟩ := by
  cases b with
  | mk s d =>
    simp only at h
    rw [h]

theorem value_pos (b : BigInt) (h : b.sign = Sign.positive) :
    value b = (digitsVal b.data : Int) := by
  unfold value
  rw [h]

theorem value_neg (b : BigInt) (h : b.sign = Sign.negative) :
    value b = -(digitsVal b.data : Int) := by
  unfold value
  rw [h]

theorem divLoop_spec (divisor : BigInt) (ps : List BigInt)
    (hcd : canonical divisor) (hsd : divisor.sign = Sign.positive)
    (hD2 : 2 ≤ digitsVal divisor.data)
    (hpslen : ps.length = 10)
    (hps : ∀ i (h : i < ps.length),
      canonical (ps.get ⟨i, h⟩) ∧ (ps.get ⟨i, h⟩).sign = Sign.positive ∧
      (ps.get ⟨i, h⟩).data ≠ [] ∧
      digitsVal (ps.get ⟨i, h⟩).data = i * digitsVal divisor.data) :
    ∀ (ds : List Nat) (rem : BigInt) (qd : List Nat),
    goodDigits ds → canonical rem → rem.sign = Sign.positive →
    digitsVal rem.data < digitsVal divisor.data →
    (∀ q ∈ qd, q < 10) →
    (rem.data ≠ [] ∨ ds ≠ []) →
    ∃ remF qdF, divLoop divisor ps ds rem qd = some (remF, qdF) ∧
      canonical remF ∧ remF.sign = Sign.positive ∧
      digitsVal remF.data < digitsVal divisor.data ∧
      remF.data ≠ [] ∧
      (∀ q ∈ qdF, q < 10) ∧
      digitsVal qdF.reverse * digitsVal divisor.data + digitsVal remF.data =
        (digitsVal qd.reverse * digitsVal divisor.data + digitsVal rem.data) *
            10 ^ ds.length +
          digitsVal ds.reverse := by
  intro ds
  induction ds with
  | nil =>
    intro rem qd hgds hcrem hsrem hremlt hqd hne
    refine ⟨rem, qd, rfl, hcrem, hsrem, hremlt, ?_, hqd, ?_⟩
    · rcases hne with h | h
      · exact h
      · exact absurd rfl h
    · simp [digitsVal]
  | cons d ds ih =>
    intro rem qd hgds hcrem hsrem hremlt hqd hne
    have hd : d < 10 := hgds d (by simp)
    have hgds2 : goodDigits ds := fun a ha => hgds a (List.mem_cons_of_mem d ha)
    have hD0 : 0 < digitsVal divisor.data := by omega
    set rem2 := normalize ⟨rem.sign, d :: rem.data⟩ with hrem2def
    have hgood2 : goodDigits (d :: rem.data) := by
      intro a ha
      rcases List.mem_cons.mp ha with h | h
      · omega
      · exact hcrem.1 a h
    have hcrem2 : canonical rem2 := normalize_canonical _ hgood2
    have hv2 : digitsVal rem2.data = d + 10 * digitsVal rem.data := by
      rw [hrem2def, normalize_data_dv]
      rfl
    have hsign2 : rem2.sign = Sign.positive := by
      rw [hrem2def, hsrem]
      exact normalize_pos_sign _
    have hne2 : rem2.data ≠ [] := by
      rw [hrem2def]
      show trimTrailingZeros (d :: rem.data) ≠ []
      intro hc
      exact absurd ((trimTrailingZeros_eq_nil_iff _).mp hc) (by simp)
    have hv2lt : digitsVal rem2.data < 10 * digitsVal divisor.data := by
      rw [hv2]
      omega
    have hKle : digitsVal rem2.data / digitsVal divisor.data ≤ 9 := by
      have h10 : digitsVal rem2.data / digitsVal divisor.data < 10 :=
        (Nat.div_lt_iff_lt_mul hD0).mpr (by omega)
      omega
    have hchar : ∀ i (h : i < ps.length),
        (fun p => !(lt rem2 p)) (ps.get ⟨i, h⟩) =
          decide (i ≤ digitsVal rem2.data / digitsVal divisor.data) := by
      intro i h
      obtain ⟨hpc, hpsgn, hpne, hpv⟩ := hps i h
      have hlt_iff := lt_correct rem2 (ps.get ⟨i, h⟩) hcrem2 hpc hne2 hpne
      rw [value_pos rem2 hsign2, value_pos _ hpsgn, hpv] at hlt_iff
      have hle_iff : i ≤ digitsVal rem2.data / digitsVal divisor.data ↔
          i * digitsVal divisor.data ≤ digitsVal rem2.data :=
        Nat.le_div_iff_mul_le hD0
      have hgoal : (!(lt rem2 (ps.get ⟨i, h⟩))) =
          decide (i ≤ digitsVal rem2.data / digitsVal divisor.data) := by
        cases hb : lt rem2 (ps.get ⟨i, h⟩)
        · have hnot : ¬((digitsVal rem2.data : Int) <
              ((i * digitsVal divisor.data : Nat) : Int)) := by
            intro hc
            have hx := hlt_iff.mpr hc
            rw [hb] at hx
            exact Bool.false_ne_true hx
          have hge : i * digitsVal divisor.data ≤ digitsVal rem2.data := by
            exact_mod_cast not_lt.mp hnot
          have hile := hle_iff.mpr hge
          simp [hile]
        · have hlt2 : (digitsVal rem2.data : Int) <
              ((i * digitsVal divisor.data : Nat) : Int) := hlt_iff.mp hb
          have hltn : digitsVal rem2.data < i * digitsVal divisor.data := by
            exact_mod_cast hlt2
          have hnile : ¬(i ≤ digitsVal rem2.data / digitsVal divisor.data) := by
            intro hc
            exact absurd (hle_iff.mp hc) (by omega)
          simp [hnile]
      exact hgoal
    have hcount : ps.countP (fun p => !(lt rem2 p)) =
        (List.range ps.length).countP
          (fun i => decide (i ≤ digitsVal rem2.data / digitsVal divisor.data)) :=
      countP_char ps _ _ hchar
    rw [hpslen, countP_le_range10 _ hKle] at hcount
    have hm : ps.countP (fun p => !(lt rem2 p)) - 1 =
        digitsVal rem2.data / digitsVal divisor.data := by
      rw [hcount]
      exact Nat.add_sub_cancel _ _
    have hgm : goodDigits [digitsVal rem2.data / digitsVal divisor.data] := by
      intro a ha
      simp at ha
      omega
    obtain ⟨prod, hprod, hcp, hvp, hsp1, hsp2⟩ :=
      opMul_spec divisor
        ⟨Sign.positive, [digitsVal rem2.data / digitsVal divisor.data]⟩
        hcd.1 hgm
    have hdm : digitsVal ([digitsVal rem2.data / digitsVal divisor.data] : List Nat) =
        digitsVal rem2.data / digitsVal divisor.data := by
      simp [digitsVal]
    rw [hdm] at hvp
    have hpsign : prod.sign = Sign.positive := by
      by_cases hz : digitsVal prod.data = 0
      · exact hsp2 hz
      · have hs := hsp1 hz
        rw [hs, hsd]
        simp
    have hple : digitsVal prod.data ≤ digitsVal rem2.data := by
      rw [hvp]
      calc digitsVal divisor.data *
          (digitsVal rem2.data / digitsVal divisor.data)
          = (digitsVal rem2.data / digitsVal divisor.data) *
              digitsVal divisor.data := by ring
        _ ≤ digitsVal rem2.data := Nat.div_mul_le_self _ _
    have heta2 : rem2 = ⟨Sign.positive, rem2.data⟩ := eta_pos rem2 hsign2
    have hetap : prod = ⟨Sign.positive, prod.data⟩ := eta_pos prod hpsign
    have hcrem2e : canonical (⟨Sign.positive, rem2.data⟩ : BigInt) :=
      heta2 ▸ hcrem2
    have hcpe : canonical (⟨Sign.positive, prod.data⟩ : BigInt) := hetap ▸ hcp
    obtain ⟨rem3, hsub3, hc3, hs3, hne3, hv3⟩ :=
      subPos_correct rem2.data prod.data hcrem2e hcpe hple
    have hsubeq : opSub rem2 prod = some rem3 := by
      rw [heta2, hetap, opSub_posPos]
      exact hsub3
    have hmod : digitsVal rem3.data < digitsVal divisor.data := by
      have hdm2 := Nat.div_add_mod (digitsVal rem2.data) (digitsVal divisor.data)
      have hmlt := Nat.mod_lt (digitsVal rem2.data) hD0
      rw [hv3, hvp]
      generalize hX : digitsVal divisor.data *
        (digitsVal rem2.data / digitsVal divisor.data) = X at hdm2 ⊢
      omega
    have hsum : digitsVal prod.data + digitsVal rem3.data =
        digitsVal rem2.data := by
      rw [hv3]
      omega
    have hqd2 : ∀ q ∈ qd ++ [digitsVal rem2.data / digitsVal divisor.data],
        q < 10 := by
      intro q hq
      rcases List.mem_append.mp hq with h | h
      · exact hqd q h
      · simp at h
        omega
    obtain ⟨remF, qdF, hF, hcF, hsF, hltF, hneF, hqdF, hEq⟩ :=
      ih rem3 (qd ++ [digitsVal rem2.data / digitsVal divisor.data])
        hgds2 hc3 hs3 hmod hqd2 (Or.inl hne3)
    have hrun : divLoop divisor ps (d :: ds) rem qd =
        divLoop divisor ps ds rem3
          (qd ++ [digitsVal rem2.data / digitsVal divisor.data]) := by
      rw [divLoop_cons, ← hrem2def, hm, hprod]
      show (match opSub rem2 prod with
        | none => none
        | some rem4 =>
          divLoop divisor ps ds rem4
            (qd ++ [digitsVal rem2.data / digitsVal divisor.data])) = _
      rw [hsubeq]
    refine ⟨remF, qdF, ?_, hcF, hsF, hltF, hneF, hqdF, ?_⟩
    · rw [hrun]
      exact hF
    · rw [hEq]
      have hqm : (qd ++ [digitsVal rem2.data / digitsVal divisor.data]).reverse =
          (digitsVal rem2.data / digitsVal divisor.data) :: qd.reverse := by
        simp
      rw [hqm]
      have hqm2 : digitsVal
          ((digitsVal rem2.data / digitsVal divisor.data) :: qd.reverse) =
          digitsVal rem2.data / digitsVal divisor.data +
            10 * digitsVal qd.reverse := rfl
      rw [hqm2]
      have hsum2 : digitsVal divisor.data *
          (digitsVal rem2.data / digitsVal divisor.data) +
          digitsVal rem3.data = digitsVal rem2.data := by
        rw [← hvp]
        exact hsum
      have hinner : (digitsVal rem2.data / digitsVal divisor.data +
            10 * digitsVal qd.reverse) * digitsVal divisor.data +
            digitsVal rem3.data =
          (digitsVal qd.reverse * digitsVal divisor.data +
            digitsVal rem.data) * 10 + d := by
        have he1 : (digitsVal rem2.data / digitsVal divisor.data +
              10 * digitsVal qd.reverse) * digitsVal divisor.data =
            digitsVal divisor.data *
              (digitsVal rem2.data / digitsVal divisor.data) +
              10 * (digitsVal qd.reverse * digitsVal divisor.data) := by
          ring
        have he2 : (digitsVal qd.reverse * digitsVal divisor.data +
              digitsVal rem.data) * 10 =
            10 * (digitsVal qd.reverse * digitsVal divisor.data) +
              10 * digitsVal rem.data := by
          ring
        rw [he1, he2]
        generalize hX : digitsVal divisor.data *
          (digitsVal rem2.data / digitsVal divisor.data) = X at hsum2 ⊢
        generalize hY : digitsVal qd.reverse * digitsVal divisor.data = Y
        omega
      rw [hinner]
      have hbe : digitsVal ((d :: ds).reverse) =
          digitsVal ds.reverse + 10 ^ ds.length * d := by
        rw [List.reverse_cons, digitsVal_append]
        simp [digitsVal, List.length_reverse]
      have hlen10 : (10 : Nat) ^ (d :: ds).length = 10 ^ ds.length * 10 := by
        simp [pow_succ]
      rw [hbe, hlen10]
      ring

/-- Zeta-reduced form of `longDivision`, for equational reasoning. -/
theorem longDivision_unfold (a b : BigInt) :
    longDivision a b =
      (if beq b ⟨Sign.positive, [0]⟩ then some DivOutcome.divByZero
       else if beq (⟨Sign.positive, b.data⟩ : BigInt) ⟨Sign.positive, a.data⟩ then
         some (DivOutcome.quotRem
           ⟨if a.sign = b.sign then Sign.positive else Sign.negative, [1]⟩
           ⟨Sign.positive, [0]⟩)
       else if lt (⟨Sign.positive, a.data⟩ : BigInt) ⟨Sign.positive, b.data⟩ then
         some (DivOutcome.quotRem ⟨Sign.positive, [0]⟩ a)
       else if beq (⟨Sign.positive, b.data⟩ : BigInt) ⟨Sign.positive, [1]⟩ then
         some (DivOutcome.quotRem
           ⟨if a.sign = b.sign then Sign.positive else Sign.negative, a.data⟩
           ⟨Sign.positive, [0]⟩)
       else
         match mkProducts ⟨Sign.positive, b.data⟩ with
         | none => none
         | some products =>
           match divLoop ⟨Sign.positive, b.data⟩ products (a.data.reverse)
               ⟨Sign.positive, []⟩ [] with
           | none => none
           | some (rem, qd) =>
             some (DivOutcome.quotRem
               ⟨if a.sign = b.sign then Sign.positive else Sign.negative,
                 (normalize ⟨Sign.positive, qd.reverse⟩).data⟩
               ⟨if beq rem ⟨Sign.positive, [0]⟩ then Sign.positive
                 else if a.sign = Sign.positive then Sign.positive
                 else Sign.negative, rem.data⟩)) := rfl

theorem canonical_strip (b : BigInt) (h : canonical b) :
    canonical (⟨Sign.positive, b.data⟩ : BigInt) := by
  have hwf := canonical_wf b h
  exact canonical_posData b.data hwf.1 hwf.2

theorem value_abs (b : BigInt) : |value b| = (digitsVal b.data : Int) := by
  obtain ⟨s, d⟩ := b
  cases s <;> simp [value]

theorem value_of_dv_zero (b : BigInt) (h : digitsVal b.data = 0) :
    value b = 0 := by
  have habs := value_abs b
  rw [h] at habs
  simpa using habs

theorem value_if (b : BigInt) :
    value b = (if b.sign = Sign.positive then (digitsVal b.data : Int)
      else -(digitsVal b.data : Int)) := by
  obtain ⟨s, d⟩ := b
  cases s <;> simp [value]

theorem longDivision_core (a b : BigInt) (hca : canonical a) (hcb : canonical b)
    (hB1 : 1 ≤ digitsVal b.data) :
    ∃ q r : BigInt, longDivision a b = some (DivOutcome.quotRem q r) ∧
      digitsVal q.data * digitsVal b.data + digitsVal r.data =
        digitsVal a.data ∧
      digitsVal r.data < digitsVal b.data ∧
      (digitsVal q.data ≠ 0 →
        q.sign = if a.sign = b.sign then Sign.positive else Sign.negative) ∧
      (digitsVal r.data ≠ 0 → r.sign = a.sign) := by
  have hbne : b.data ≠ [] := by
    intro h
    rw [h] at hB1
    simp [digitsVal] at hB1
  have hbz : ¬(beq b ⟨Sign.positive, [0]⟩ = true) := by
    intro h
    have hb0 : b = ⟨Sign.positive, [0]⟩ := (beq_iff _ _).mp h
    rw [hb0] at hB1
    simp [digitsVal] at hB1
  by_cases hc1 :
      beq (⟨Sign.positive, b.data⟩ : BigInt) ⟨Sign.positive, a.data⟩ = true
  · have hdd0 := congrArg BigInt.data
      ((beq_iff ⟨Sign.positive, b.data⟩ ⟨Sign.positive, a.data⟩).mp hc1)
    have hdd : b.data = a.data := hdd0
    refine ⟨⟨if a.sign = b.sign then Sign.positive else Sign.negative, [1]⟩,
      ⟨Sign.positive, [0]⟩, ?_, ?_, ?_, ?_, ?_⟩
    · rw [longDivision_unfold, if_neg hbz, if_pos hc1]
    · show digitsVal [1] * digitsVal b.data + digitsVal [0] = digitsVal a.data
      have h1 : digitsVal ([1] : List Nat) = 1 := rfl
      have h0 : digitsVal ([0] : List Nat) = 0 := rfl
      rw [hdd, h1, h0]
      omega
    · show digitsVal [0] < digitsVal b.data
      have h0 : digitsVal ([0] : List Nat) = 0 := rfl
      omega
    · intro _
      rfl
    · intro h
      exact absurd rfl h
  · by_cases hc2 :
        lt (⟨Sign.positive, a.data⟩ : BigInt) ⟨Sign.positive, b.data⟩ = true
    · refine ⟨⟨Sign.positive, [0]⟩, a, ?_, ?_, ?_, ?_, ?_⟩
      · rw [longDivision_unfold, if_neg hbz, if_neg hc1, if_pos hc2]
      · show digitsVal [0] * digitsVal b.data + digitsVal a.data =
          digitsVal a.data
        have h0 : digitsVal ([0] : List Nat) = 0 := rfl
        rw [h0]
        omega
      · show digitsVal a.data < digitsVal b.data
        by_cases ha0 : a.data = []
        · rw [ha0]
          have h0 : digitsVal ([] : List Nat) = 0 := rfl
          omega
        · have hiff := lt_correct _ _ (canonical_strip a hca)
            (canonical_strip b hcb) ha0 hbne
          have hv := hiff.mp hc2
          rw [value_pos _ rfl, value_pos _ rfl] at hv
          have hv2 : (digitsVal a.data : Int) < (digitsVal b.data : Int) := hv
          exact_mod_cast hv2
      · intro h
        exact absurd rfl h
      · intro _
        rfl
    · by_cases hc3 :
          beq (⟨Sign.positive, b.data⟩ : BigInt) ⟨Sign.positive, [1]⟩ = true
      · have hb10 := congrArg BigInt.data
          ((beq_iff ⟨Sign.positive, b.data⟩ ⟨Sign.positive, [1]⟩).mp hc3)
        have hb1 : b.data = [1] := hb10
        refine ⟨⟨if a.sign = b.sign then Sign.positive else Sign.negative,
          a.data⟩, ⟨Sign.positive, [0]⟩, ?_, ?_, ?_, ?_, ?_⟩
        · rw [longDivision_unfold, if_neg hbz, if_neg hc1, if_neg hc2,
            if_pos hc3]
        · show digitsVal a.data * digitsVal b.data + digitsVal [0] =
            digitsVal a.data
          have h1 : digitsVal ([1] : List Nat) = 1 := rfl
          have h0 : digitsVal ([0] : List Nat) = 0 := rfl
          rw [hb1, h1, h0]
          omega
        · show digitsVal [0] < digitsVal b.data
          have h0 : digitsVal ([0] : List Nat) = 0 := rfl
          omega
        · intro _
          rfl
        · intro h
          exact absurd rfl h
      · have hwb := canonical_wf b hcb
        have hB2 : 2 ≤ digitsVal b.data := by
          rcases Nat.lt_or_ge (digitsVal b.data) 2 with h | h
          · have hb1v : digitsVal b.data = 1 := by omega
            have hq : b.data = [1] :=
              dv_inj_trimmed b.data [1] hwb.2 rfl hwb.1
                (by intro x hx; simp at hx; omega) hbne (by simp)
                (by rw [hb1v]; rfl)
            exact absurd
              (by rw [hq]; exact beq_refl_data [1] Sign.positive) hc3
          · exact h
        have hane : a.data ≠ [] := by
          intro ha0
          apply hc2
          have hltn : lt (⟨Sign.positive, a.data⟩ : BigInt)
              ⟨Sign.positive, b.data⟩ =
              lt ⟨Sign.positive, []⟩ ⟨Sign.positive, b.data⟩ := by
            rw [ha0]
          rw [hltn]
          exact lt_nil_pos b.data hbne
        obtain ⟨ps, hmk, hpslen, hpschar⟩ :=
          mkProducts_spec ⟨Sign.positive, b.data⟩ (canonical_strip b hcb)
            rfl hB1
        obtain ⟨remF, qdF, hF, hcF, hsF, hltF, hneF, hqdF, hEq⟩ :=
          divLoop_spec ⟨Sign.positive, b.data⟩ ps (canonical_strip b hcb)
            rfl hB2 hpslen hpschar
            (a.data.reverse) ⟨Sign.positive, []⟩ []
            (goodDigits_reverse _ hca.1)
            (canonical_posData [] (by intro x hx; simp at hx) rfl) rfl
            (by show (0 : Nat) < digitsVal b.data; omega)
            (by intro x hx; simp at hx)
            (Or.inr (by simpa using hane))
        have hEq2 : digitsVal qdF.reverse * digitsVal b.data +
            digitsVal remF.data = digitsVal a.data := by
          simpa [digitsVal] using hEq
        refine ⟨⟨if a.sign = b.sign then Sign.positive else Sign.negative,
            (normalize ⟨Sign.positive, qdF.reverse⟩).data⟩,
          ⟨if beq remF ⟨Sign.positive, [0]⟩ then Sign.positive
            else if a.sign = Sign.positive then Sign.positive
            else Sign.negative, remF.data⟩, ?_, ?_, ?_, ?_, ?_⟩
        · rw [longDivision_unfold, if_neg hbz, if_neg hc1, if_neg hc2,
            if_neg hc3, hmk]
          show (match divLoop ⟨Sign.positive, b.data⟩ ps (a.data.reverse)
              ⟨Sign.positive, []⟩ [] with
            | none => none
            | some (rem, qd) =>
              some (DivOutcome.quotRem
                ⟨if a.sign = b.sign then Sign.positive else Sign.negative,
                  (normalize ⟨Sign.positive, qd.reverse⟩).data⟩
                ⟨if beq rem ⟨Sign.positive, [0]⟩ then Sign.positive
                  else if a.sign = Sign.positive then Sign.positive
                  else Sign.negative, rem.data⟩)) = _
          rw [hF]
        · show digitsVal (normalize ⟨Sign.positive, qdF.reverse⟩).data *
            digitsVal b.data + digitsVal remF.data = digitsVal a.data
          rw [normalize_data_dv]
          exact hEq2
        · exact hltF
        · intro _
          rfl
        · intro hr
          show (if beq remF ⟨Sign.positive, [0]⟩ then Sign.positive
            else if a.sign = Sign.positive then Sign.positive
            else Sign.negative) = a.sign
          have hbeqF : ¬(beq remF ⟨Sign.positive, [0]⟩ = true) := by
            intro hbq
            have hre : remF = ⟨Sign.positive, [0]⟩ := (beq_iff _ _).mp hbq
            rw [hre] at hr
            exact hr rfl
          rw [if_neg hbeqF]
          cases hs : a.sign
          · rw [if_neg (by simp)]
          · rw [if_pos rfl]

theorem opDiv_quotRem (a b q r : BigInt)
    (h : longDivision a b = some (DivOutcome.quotRem q r)) :
    opDiv a b = some (DivResult.val q) := by
  unfold opDiv
  rw [h]

theorem opRem_quotRem (a b q r : BigInt)
    (h : longDivision a b = some (DivOutcome.quotRem q r)) :
    opRem a b = some (DivResult.val r) := by
  unfold opRem
  rw [h]

/-- Claim C1: for canonical operands with a nonzero divisor, `operator/`
and `operator%` return a quotient and remainder satisfying the division
identity `q*b + r == a` with `|r| < |b|`, the quotient's sign is the XOR
of the operand signs when the quotient is nonzero, and the remainder's
sign is the dividend's sign when the remainder is nonzero. -/
theorem c1_division_identity (a b : BigInt) (ha : canonical a)
    (hb : canonical b) (hb0 : value b ≠ 0) :
    ∃ q r : BigInt,
      opDiv a b = some (DivResult.val q) ∧
      opRem a b = some (DivResult.val r) ∧
      value q * value b + value r = value a ∧
      |value r| < |value b| ∧
      (value q ≠ 0 →
        q.sign = if a.sign = b.sign then Sign.positive else Sign.negative) ∧
      (value r ≠ 0 → r.sign = a.sign) := by
  have hBnz : digitsVal b.data ≠ 0 := by
    intro h
    exact hb0 (value_of_dv_zero b h)
  have hB1 : 1 ≤ digitsVal b.data := by omega
  obtain ⟨q, r, heq, hmag, hrlt, hqs, hrs⟩ := longDivision_core a b ha hb hB1
  refine ⟨q, r, opDiv_quotRem a b q r heq, opRem_quotRem a b q r heq,
    ?_, ?_, ?_, ?_⟩
  · have hcast : (digitsVal q.data : Int) * (digitsVal b.data : Int) +
        (digitsVal r.data : Int) = (digitsVal a.data : Int) := by
      exact_mod_cast hmag
    have hvq : value q = (if a.sign = b.sign then (digitsVal q.data : Int)
        else -(digitsVal q.data : Int)) := by
      by_cases hQ0 : digitsVal q.data = 0
      · rw [value_of_dv_zero q hQ0, hQ0]
        simp
      · have hqsgn := hqs hQ0
        by_cases hab : a.sign = b.sign
        · rw [if_pos hab]
          rw [if_pos hab] at hqsgn
          exact value_pos q hqsgn
        · rw [if_neg hab]
          rw [if_neg hab] at hqsgn
          exact value_neg q hqsgn
    have hvr : value r = (if a.sign = Sign.positive then
        (digitsVal r.data : Int) else -(digitsVal r.data : Int)) := by
      by_cases hR0 : digitsVal r.data = 0
      · rw [value_of_dv_zero r hR0, hR0]
        simp
      · have hrsgn := hrs hR0
        cases hsa : a.sign
        · rw [if_neg (by simp)]
          exact value_neg r (hrsgn.trans hsa)
        · rw [if_pos rfl]
          exact value_pos r (hrsgn.trans hsa)
    rw [hvq, hvr, value_if a, value_if b]
    cases hsa : a.sign <;> cases hsb : b.sign <;> simp
    · linear_combination -hcast
    · linear_combination -hcast
    · linear_combination hcast
    · linear_combination hcast
  · rw [value_abs, value_abs]
    exact_mod_cast hrlt
  · intro hvq0
    apply hqs
    intro hQ0
    exact hvq0 (value_of_dv_zero q hQ0)
  · intro hvr0
    apply hrs
    intro hR0
    exact hvr0 (value_of_dv_zero r hR0)

/-- Claim C1, witness: dividing -100 by 7 through the general long-division
path returns quotient and remainder satisfying the division identity. -/
theorem c1_division_identity_witness :
    ∃ q r : BigInt,
      opDiv ⟨Sign.negative, [0, 0, 1]⟩ ⟨Sign.positive, [7]⟩ =
        some (DivResult.val q) ∧
      opRem ⟨Sign.negative, [0, 0, 1]⟩ ⟨Sign.positive, [7]⟩ =
        some (DivResult.val r) ∧
      value q * value ⟨Sign.positive, [7]⟩ + value r =
        value ⟨Sign.negative, [0, 0, 1]⟩ ∧
      |value r| < |value ⟨Sign.positive, [7]⟩| ∧
      (value q ≠ 0 →
        q.sign = if (⟨Sign.negative, [0, 0, 1]⟩ : BigInt).sign =
            (⟨Sign.positive, [7]⟩ : BigInt).sign then Sign.positive
          else Sign.negative) ∧
      (value r ≠ 0 →
        r.sign = (⟨Sign.negative, [0, 0, 1]⟩ : BigInt).sign) :=
  c1_division_identity ⟨Sign.negative, [0, 0, 1]⟩ ⟨Sign.positive, [7]⟩
    (by decide) (by decide) (by decide)

theorem char_digit_roundtrip (c : Char) (h : c.isDigit = true) :
    Char.ofNat (c.toNat - 48 + 48) = c := by
  have hb : 48 ≤ c.toNat := by
    unfold Char.isDigit at h
    simp only [Bool.and_eq_true, decide_eq_true_eq] at h
    exact h.1
  have he : c.toNat - 48 + 48 = c.toNat := by omega
  rw [he]
  exact Char.ofNat_toNat c

theorem map_digits_roundtrip (l : List Char)
    (h : l.all (fun c => c.isDigit) = true) :
    (l.map (fun ch => ch.toNat - 48)).map (fun d => Char.ofNat (d + 48)) =
      l := by
  induction l with
  | nil => rfl
  | cons c t ih =>
    simp only [List.all_cons, Bool.and_eq_true] at h
    simp only [List.map_cons]
    rw [char_digit_roundtrip c h.1, ih h.2]

theorem digit_f_pos (c : Char) (hd : c.isDigit = true) (h0 : c ≠ '0') :
    c.toNat - 48 ≠ 0 := by
  unfold Char.isDigit at hd
  simp only [Bool.and_eq_true, decide_eq_true_eq] at hd
  have h48 : 48 ≤ c.toNat := hd.1
  intro hz
  apply h0
  have hv : c.toNat = 48 := by omega
  calc c = Char.ofNat c.toNat := (Char.ofNat_toNat c).symm
    _ = '0' := by rw [hv]

theorem popLeadingZeros_head_ne (a : Nat) (t : List Nat) (h : a ≠ 0) :
    popLeadingZeros (a :: t) = a :: t := by
  cases t with
  | nil =>
    cases a with
    | zero => exact absurd rfl h
    | succ n => rfl
  | cons b t2 =>
    cases a with
    | zero => exact absurd rfl h
    | succ n => rfl

theorem trim_of_msd_ne (ds : List Nat) (a : Nat) (t : List Nat)
    (h : ds.reverse = a :: t) (ha : a ≠ 0) : trimTrailingZeros ds = ds := by
  unfold trimTrailingZeros
  rw [h, popLeadingZeros_head_ne a t ha, ← h, List.reverse_reverse]

theorem digitsBody_true (l : List Char) (h : digitsBody l = true) :
    l = ['0'] ∨ (l ≠ [] ∧ l.head? ≠ some '0' ∧
      l.all (fun c => c.isDigit) = true) := by
  unfold digitsBody at h
  simp only [Bool.or_eq_true, Bool.and_eq_true, Bool.not_eq_true',
    decide_eq_true_eq] at h
  rcases h with h | h
  · exact Or.inl h
  · right
    refine ⟨?_, ?_, h.2⟩
    · intro hc
      rw [hc] at h
      simp at h
    · intro hc
      have hdec := h.1.2
      rw [hc] at hdec
      simp at hdec

theorem specPattern_cons (c : Char) (t : List Char) (h : c ≠ '-') :
    specPattern (c :: t) = digitsBody (c :: t) := by
  unfold specPattern
  split
  · next heq =>
    exfalso
    apply h
    have := congrArg (fun l => List.head? l) heq
    simpa using this
  · rfl

/-- Claim C5 (amended): the parse/format round-trip `to_string(parse s) = s`
holds for every string matching `-?(0|[1-9][0-9]*)` except `"-0"` (for
which the parser normalizes away the sign and `to_string` returns `"0"`,
as shown by the counterexample theorem). -/
theorem c5_amended_roundtrip (s : List Char) (hs : specPattern s = true)
    (hne : s ≠ ['-', '0']) :
    ∃ b, ofChars s = some b ∧ to_string b = s := by
  cases s with
  | nil => simp [specPattern, digitsBody] at hs
  | cons c t =>
    by_cases hm : c = '-'
    · subst hm
      have hbody : digitsBody t = true := hs
      rcases digitsBody_true t hbody with h0 | ⟨hne2, hh, hall⟩
      · rw [h0] at hne
        exact absurd rfl hne
      · obtain ⟨d, t2, ht⟩ : ∃ d t2, t = d :: t2 := by
          cases t with
          | nil => exact absurd rfl hne2
          | cons d t2 => exact ⟨d, t2, rfl⟩
        set ds : List Nat := (t.reverse).map (fun ch => ch.toNat - 48)
          with hdsdef
        have hdsrev : ds.reverse = t.map (fun ch => ch.toNat - 48) := by
          rw [hdsdef, ← List.reverse_map, List.reverse_reverse]
        have hd_digit : d.isDigit = true := by
          rw [ht] at hall
          simp only [List.all_cons, Bool.and_eq_true] at hall
          exact hall.1
        have hd0 : d ≠ '0' := by
          intro hc
          apply hh
          rw [ht, hc]
          rfl
        have hfd : d.toNat - 48 ≠ 0 := digit_f_pos d hd_digit hd0
        have hdsrev2 : ds.reverse =
            (d.toNat - 48) :: t2.map (fun ch => ch.toNat - 48) := by
          rw [hdsrev, ht]
          rfl
        have htrim : trimTrailingZeros ds = ds :=
          trim_of_msd_ne ds (d.toNat - 48) _ hdsrev2 hfd
        have hne_ds : ds ≠ [] := by
          intro hnil
          rw [hnil] at hdsrev2
          simp at hdsrev2
        have hne0_ds : ds ≠ [0] := by
          intro h01
          rw [h01] at hdsrev2
          simp at hdsrev2
          exact hfd hdsrev2.1.symm
        have hnorm : normalize ⟨Sign.negative, ds⟩ = ⟨Sign.negative, ds⟩ := by
          show (⟨if trimTrailingZeros ds = [] ∨ trimTrailingZeros ds = [0]
            then Sign.positive else Sign.negative, trimTrailingZeros ds⟩ :
              BigInt) = ⟨Sign.negative, ds⟩
          have hcond : ¬(ds = [] ∨ ds = [0]) := by
            rintro (h | h)
            · exact hne_ds h
            · exact hne0_ds h
          rw [htrim, if_neg hcond]
        have hof : ofChars ('-' :: t) = some ⟨Sign.negative, ds⟩ := by
          show (if t.all (fun ch => ch.isDigit) = true then
            some (normalize ⟨Sign.negative,
              (t.reverse).map (fun ch => ch.toNat - 48)⟩)
            else none) = some ⟨Sign.negative, ds⟩
          rw [if_pos hall, ← hdsdef, hnorm]
        refine ⟨⟨Sign.negative, ds⟩, hof, ?_⟩
        show (if ds = [] then ['0']
          else (if Sign.negative = Sign.negative then ['-'] else []) ++
            (ds.reverse).map (fun d => Char.ofNat (d + 48))) = '-' :: t
        rw [if_neg hne_ds, if_pos rfl, hdsrev, map_digits_roundtrip t hall]
        rfl
    · have hbody : digitsBody (c :: t) = true := by
        rw [specPattern_cons c t hm] at hs
        exact hs
      rcases digitsBody_true (c :: t) hbody with h0 | ⟨hne2, hh, hall⟩
      · have hc0 : c = '0' ∧ t = [] := by
          constructor
          · exact congrArg (fun l => l.headD 'x') h0
          · exact congrArg (fun l => l.tail) h0
        rw [hc0.1, hc0.2]
        exact ⟨⟨Sign.positive, [0]⟩, rfl, rfl⟩
      · have hc_digit : c.isDigit = true := by
          simp only [List.all_cons, Bool.and_eq_true] at hall
          exact hall.1
        have hc0 : c ≠ '0' := by
          intro hc
          apply hh
          rw [hc]
          rfl
        have hfc : c.toNat - 48 ≠ 0 := digit_f_pos c hc_digit hc0
        set ds : List Nat := ((c :: t).reverse).map (fun ch => ch.toNat - 48)
          with hdsdef
        have hdsrev : ds.reverse = (c :: t).map (fun ch => ch.toNat - 48) := by
          rw [hdsdef, ← List.reverse_map, List.reverse_reverse]
        have hdsrev2 : ds.reverse =
            (c.toNat - 48) :: t.map (fun ch => ch.toNat - 48) := by
          rw [hdsrev]
          rfl
        have htrim : trimTrailingZeros ds = ds :=
          trim_of_msd_ne ds (c.toNat - 48) _ hdsrev2 hfc
        have hne_ds : ds ≠ [] := by
          intro hnil
          rw [hnil] at hdsrev2
          simp at hdsrev2
        have hne0_ds : ds ≠ [0] := by
          intro h01
          rw [h01] at hdsrev2
          simp at hdsrev2
          exact hfc hdsrev2.1.symm
        have hnorm : normalize ⟨Sign.positive, ds⟩ = ⟨Sign.positive, ds⟩ := by
          show (⟨if trimTrailingZeros ds = [] ∨ trimTrailingZeros ds = [0]
            then Sign.positive else Sign.positive, trimTrailingZeros ds⟩ :
              BigInt) = ⟨Sign.positive, ds⟩
          have hcond : ¬(ds = [] ∨ ds = [0]) := by
            rintro (h | h)
            · exact hne_ds h
            · exact hne0_ds h
          rw [htrim, if_neg hcond]
        have hof : ofChars (c :: t) = some ⟨Sign.positive, ds⟩ := by
          show (if (if c = '-' then t else c :: t).all
              (fun ch => ch.isDigit) = true then
            some (normalize ⟨if c = '-' then Sign.negative else Sign.positive,
              ((if c = '-' then t else c :: t).reverse).map
                (fun ch => ch.toNat - 48)⟩)
            else none) = some ⟨Sign.positive, ds⟩
          simp only [if_neg hm]
          rw [if_pos hall, ← hdsdef, hnorm]
        refine ⟨⟨Sign.positive, ds⟩, hof, ?_⟩
        show (if ds = [] then ['0']
          else (if Sign.positive = Sign.negative then ['-'] else []) ++
            (ds.reverse).map (fun d => Char.ofNat (d + 48))) = c :: t
        rw [if_neg hne_ds, if_neg (by intro h; cases h), hdsrev,
          map_digits_roundtrip (c :: t) hall]
        rfl

/-- Claim C5 (amended), witness: the string `"-10"` matches the pattern,
differs from `"-0"`, and round-trips exactly. -/
theorem c5_amended_roundtrip_witness :
    ∃ b, ofChars ['-', '1', '0'] = some b ∧ to_string b = ['-', '1', '0'] :=
  c5_amended_roundtrip ['-', '1', '0'] (by decide) (by decide)

end Sch
